import Mathlib

set_option exponentiation.threshold 5000
set_option maxRecDepth 100000

/-!
Verification development for the `BD_AeropuertoA` ETL engine
(`src/excel_mysql.py` and the `load_optional_table` variant in `src/c.py`).

The embedding models:
* scalar cell values (`Value`) as they appear after pandas CSV reading and
  normalisation: strings, ints, bools, and nulls (`None`/`NaN`);
* the value coercions `_to_int_safe` and `_to_bool_safe`;
* the per-row upsert engine `load_optional_table` with its helper
  `insert_row_if_missing`, over an explicit destination-table state and an
  explicit trace of executed SQL statements, parameterised by a
  statement-failure oracle standing for execution-time exceptions;
* the `ticket_aereo` staged bulk merge of `run_etl` (dedup, FK partition,
  staging, set-based insert/update);
* the control flow of the staging phase's try/except/finally cleanup.

Modelling notes, fixed once here:
* Python `str.strip()` is embedded as dropping whitespace characters from
  both ends of the character list (`pyStrip`); `str.lower()` as ASCII
  `Char.toLower` per character.
* `int(float(s))` is embedded by `parseTruncInt` in two faithful stages.
  `parsePyNumber` reads CPython's `float()` numeral grammar on the stripped
  string: optional sign, decimal digits with an optional fractional part
  (either side of the dot may be empty but not both), an optional
  `[eE][+-]?digits` exponent, and single `_` separators strictly between
  digits; it yields the exact decimal value `± M · 10^e10`.
  `pyFloatTruncInt` then rounds that value to the nearest IEEE-754 binary64
  (round half to even on a 53-bit significand) and truncates toward zero;
  a rounding result of magnitude `≥ 2^1024` is the `inf` on which `int()`
  raises `OverflowError`, hence `none`.  The words `inf`/`nan` are outside
  the grammar, which coincides with the end-to-end behaviour (`float()`
  accepts them, `int()` then raises).  The significand is found with an
  unbounded exponent range; true binary64 rounds subnormals (magnitude
  `< 2^-1022`) at reduced precision, but every such value truncates to `0`
  either way, so the truncated result agrees.  Non-ASCII decimal digits
  (which CPython transliterates before parsing) are outside the grammar;
  unparsed strings degrade to `none` exactly as the source's
  `except: return None` does.
* `pd.isna` on already-normalised cells is the identity on this `Value`
  universe (nulls are already `vnull`), so it is not modelled separately.
-/

/-- A scalar cell value as handled by the ETL code: SQL/pandas null,
integer, string, or boolean. -/
inductive Value where
  | vnull : Value
  | vint : Int → Value
  | vstr : String → Value
  | vbool : Bool → Value
deriving DecidableEq, Repr

/-- Python `str(val)` on the value universe (`str` of a string is itself;
`str(True) = "True"`). -/
def pyStr : Value → String
  | .vnull => "None"
  | .vint n => toString n
  | .vstr s => s
  | .vbool b => if b then "True" else "False"

/-- Python `str.strip()`: drop whitespace from both ends. -/
def pyStrip (cs : List Char) : List Char :=
  ((cs.dropWhile Char.isWhitespace).reverse.dropWhile Char.isWhitespace).reverse

/-- Numeric value of a list of decimal digit characters. -/
def digitsVal (cs : List Char) : Nat :=
  cs.foldl (fun a c => a * 10 + (c.toNat - 48)) 0

/-- One run of decimal digits with single `_` separators strictly between
digits (CPython's underscore rule for `float()` numerals), accumulated onto
`acc` with `cnt` digits already read; `u` records a pending underscore that
must be followed by a digit.  Returns the value, the digit count and the
unconsumed remainder, or `none` for a misplaced underscore. -/
def digitRunAux (acc cnt : Nat) (u : Bool) : List Char → Option (Nat × Nat × List Char)
  | [] => if u then none else some (acc, cnt, [])
  | c :: rest =>
      if c.isDigit then digitRunAux (acc * 10 + (c.toNat - 48)) (cnt + 1) false rest
      else if c = '_' then
        if u || cnt = 0 then none else digitRunAux acc cnt true rest
      else if u then none else some (acc, cnt, c :: rest)

/-- Strip one optional leading sign, returning whether it was `-`. -/
def splitSign (cs : List Char) : Bool × List Char :=
  match cs with
  | [] => (false, [])
  | c :: t => if c = '-' then (true, t) else if c = '+' then (false, t) else (false, c :: t)

/-- Continue a mantissa after its integer digits `M1`: an optional `.` with
optional fractional digits.  Returns the combined mantissa value, the
number of fractional digits, and the remainder.  (A fractional digit run
broken by a misplaced underscore leaves a digit-headed remainder, which the
exponent parse then rejects, as CPython does.) -/
def parseFrac (M1 : Nat) : List Char → Nat × Nat × List Char
  | [] => (M1, 0, [])
  | c :: t =>
      if c = '.' then
        match t with
        | [] => (M1, 0, [])
        | c2 :: _ =>
            if c2.isDigit then
              match digitRunAux 0 0 false t with
              | some (M2, f, r) => (M1 * 10 ^ f + M2, f, r)
              | none => (M1, 0, t)
            else (M1, 0, t)
      else (M1, 0, c :: t)

/-- The optional exponent part `([eE] [+-]? digits)` closing a numeral;
any other nonempty remainder makes the whole numeral invalid. -/
def parseExpPart : List Char → Option Int
  | [] => some 0
  | c :: t =>
      if c = 'e' ∨ c = 'E' then
        match splitSign t with
        | (eneg, t2) =>
            match t2 with
            | [] => none
            | c2 :: _ =>
                if c2.isDigit then
                  match digitRunAux 0 0 false t2 with
                  | some (x, _, []) => some (if eneg then -(x : Int) else (x : Int))
                  | _ => none
                else none
      else none

/-- Close a parse: `mfr` is the mantissa value, the fractional digit count
and the remainder; `c1` the count of integer digits.  Yields the sign, the
mantissa, the decimal exponent `e10` (exponent part minus fractional
shift), and the total mantissa digit count. -/
def parseTail (neg : Bool) (c1 : Nat) (mfr : Nat × Nat × List Char) :
    Option (Bool × Nat × Int × Nat) :=
  match parseExpPart mfr.2.2 with
  | some x => some (neg, mfr.1, x - (mfr.2.1 : Int), c1 + mfr.2.1)
  | none => none

/-- The signless part of `float()`'s numeral grammar: integer digits with
an optional fraction, or a leading-dot fraction, then an optional
exponent. -/
def parseAfterSign (neg : Bool) : List Char → Option (Bool × Nat × Int × Nat)
  | [] => none
  | c :: t =>
      if c.isDigit then
        match digitRunAux 0 0 false (c :: t) with
        | some (M1, c1, rest) => parseTail neg c1 (parseFrac M1 rest)
        | none => none
      else if c = '.' then
        match t with
        | [] => none
        | c2 :: _ =>
            if c2.isDigit then
              match digitRunAux 0 0 false t with
              | some (M2, f, rest) => parseTail neg 0 (M2, f, rest)
              | none => none
            else none
      else none

/-- CPython's `float()` numeral grammar on a stripped string (ASCII form):
the exact decimal value is `± M · 10^e10`, with the total count of written
mantissa digits carried along (it bounds `M < 10^len` and scales the fuel
of the binary-exponent search below).  `inf`/`nan` words are rejected here:
`float()` accepts them but `int()` then raises, so the end-to-end result
coincides. -/
def parsePyNumber (cs : List Char) : Option (Bool × Nat × Int × Nat) :=
  parseAfterSign (splitSign cs).1 (splitSign cs).2

/-- `⌊log₂ n⌋` by fuelled halving (structural recursion, so that the kernel
can evaluate it), in chunks of `2^64` while the argument is large to keep
the evaluation depth small; exact whenever `n < 2^fuel`. -/
def log2Fuel : Nat → Nat → Nat
  | 0, _ => 0
  | fuel + 1, n =>
      if 2 ^ 64 ≤ n then log2Fuel fuel (n / 2 ^ 64) + 64
      else if 2 ≤ n then log2Fuel fuel (n / 2) + 1
      else 0

/-- `e` is the correct scaling exponent for the rational `n / d`: the
scaled value `n / (d·2^e)` lies in the binade `[2^52, 2^53)` of binary64
significands. -/
def goodE (n d e : Nat) : Bool :=
  decide (2 ^ 52 * (d * 2 ^ e) ≤ n ∧ n < 2 ^ 53 * (d * 2 ^ e))

/-- Find the scaling exponent for `n / d` from the `⌊log₂⌋` estimate, which
is off by at most the probe window. -/
def findE (fuel n d : Nat) : Nat :=
  let est := log2Fuel fuel n - (log2Fuel fuel d + 53)
  if goodE n d est then est
  else if goodE n d (est + 1) then est + 1
  else est + 2

/-- Correct rounding of the rational `num / den` (`den > 0`) to an integer,
ties to even: the rounding step of IEEE-754 binary64. -/
def roundHalfEven (num den : Nat) : Nat :=
  let q := num / den
  let r := num % den
  if 2 * r < den then q
  else if den < 2 * r then q + 1
  else if q % 2 = 0 then q else q + 1

/-- `int(float(s))` after parsing: the exact decimal value `± M · 10^e10`
(with `len` written mantissa digits, so `M < 10^len`) is rounded to the
nearest binary64 and truncated toward zero.  The value is scaled by
`2^1400` so the exponent search is a `Nat`; `e1 - 1400 ≥ 972` means the
rounded magnitude is `≥ 2^52 · 2^972 = 2^1024`, the overflow threshold
where `float()` gives `inf` and `int()` raises, hence `none`.  The guard
`310 ≤ e10` (value `≥ 10^310`, far beyond the threshold) keeps `10^e10`
computable; `len + e10 ≤ -400` (value `< 10^-400 < 1/2`, which always
truncates to `0`) likewise bounds `10^(-e10)`. -/
def pyFloatTruncInt (neg : Bool) (M : Nat) (e10 : Int) (len : Nat) : Option Int :=
  if M = 0 then some 0
  else if 310 ≤ e10 then none
  else if (len : Int) + e10 ≤ -400 then some 0
  else
    let fuel := 4 * len + 2500
    let N := M * 10 ^ e10.toNat * 2 ^ 1400
    let d := 10 ^ (-e10).toNat
    let e := findE fuel N d
    let m0 := roundHalfEven N (d * 2 ^ e)
    let m1 := if m0 = 2 ^ 53 then 2 ^ 52 else m0
    let e1 := if m0 = 2 ^ 53 then e + 1 else e
    if 2372 ≤ e1 then none
    else
      let t : Nat := if 1400 ≤ e1 then m1 * 2 ^ (e1 - 1400) else m1 / 2 ^ (1400 - e1)
      some (if neg then -(t : Int) else (t : Int))

/-- `int(float(s))` on a stripped nonempty string: parse the `float()`
numeral, round through the binary64 double, truncate toward zero; any
failure (bad grammar, `inf`/`nan`, overflow) is the caught exception,
`none`. -/
def parseTruncInt (cs : List Char) : Option Int :=
  match parsePyNumber cs with
  | some (neg, M, e10, len) => pyFloatTruncInt neg M e10 len
  | none => none

/-- `_to_int_safe` (excel_mysql.py:93-104). `None → None`; an `int` (which
in Python includes `bool`) is returned as is; otherwise `str(val)` is
stripped, the empty string gives `None`, and `int(float(s))` is attempted
with any failure giving `None`. -/
def toIntSafe : Value → Option Int
  | .vnull => none
  | .vint n => some n
  | .vbool b => some (if b then 1 else 0)
  | .vstr s =>
      let t := pyStrip s.data
      if t.isEmpty then none else parseTruncInt t

/-- `_to_bool_safe` (excel_mysql.py:106-114): strip and lower-case
`str(val)`, then match against the truthy set
`{"1","true","t","yes","y","si","sí"}` and the falsy set
`{"0","false","f","no","n"}`; anything else is `None`. -/
def toBoolSafe : Value → Option Bool
  | .vnull => none
  | v =>
      let s := String.mk ((pyStrip (pyStr v).data).map Char.toLower)
      if s = "1" ∨ s = "true" ∨ s = "t" ∨ s = "yes" ∨ s = "y" ∨ s = "si" ∨ s = "sí" then
        some true
      else if s = "0" ∨ s = "false" ∨ s = "f" ∨ s = "no" ∨ s = "n" then
        some false
      else none

example : toIntSafe (.vstr "3.0") = some 3 := by decide
example : toIntSafe (.vstr " 42 ") = some 42 := by decide
example : toIntSafe (.vstr "") = none := by decide
example : toIntSafe (.vstr "abc") = none := by decide
example : toIntSafe (.vstr "-7.9") = some (-7) := by decide
example : toIntSafe (.vstr "1e3") = some 1000 := by decide
example : toIntSafe (.vstr "1_0") = some 10 := by decide
example : toIntSafe (.vstr "9007199254740993") = some 9007199254740992 := by decide
example : toIntSafe (.vstr "0.9999999999999999999") = some 1 := by decide
example : toIntSafe (.vstr "1.8e308") = none := by decide
example : toBoolSafe (.vstr " YES ") = some true := by decide
example : toBoolSafe (.vstr "no") = some false := by decide
example : toBoolSafe (.vstr "maybe") = none := by decide

/-! ### Records (Python dicts of column name to value) -/

/-- A record: an ordered association of column names to values, the shallow
embedding of a Python `dict` row (`r.to_dict()`). -/
abbrev Row := List (String × Value)

/-- Dict lookup: `row.get(k)` as `Option`, first matching key. -/
def getV : Row → String → Option Value
  | [], _ => none
  | (k, v) :: r, key => if k = key then some v else getV r key

/-- `k in row`. -/
def hasK (r : Row) (k : String) : Bool := (getV r k).isSome

/-- Dict assignment `row[k] = v`: replace the first occurrence in place, or
append when the key is absent (Python dicts keep insertion order). -/
def setV : Row → String → Value → Row
  | [], k, v => [(k, v)]
  | (k', v') :: r, k, v => if k' = k then (k, v) :: r else (k', v') :: setV r k v

/-- Sequential dict assignments for a list of column/value pairs (the
effect of a SQL `UPDATE ... SET c1 = v1, c2 = v2, ...` on a row). -/
def setVs (f : Row) (cs : Row) : Row := cs.foldl (fun a kv => setV a kv.1 kv.2) f

/-- The key sequence of a record. -/
def keysOf (r : Row) : List String := r.map Prod.fst

/-- Projection of a record to the known destination columns:
`{k: v for k, v in row.items() if k in valid_cols}`. -/
def projectRow (valid : List String) (r : Row) : Row :=
  r.filter (fun kv => decide (kv.1 ∈ valid))

/-- Lift an optional integer back into a cell value (the result of storing
`_to_int_safe(x)` in a dict slot). -/
def optIntV : Option Int → Value
  | none => .vnull
  | some n => .vint n

/-- Coerce every declared FK column present in the record with
`_to_int_safe` (excel_mysql.py:185-187 / c.py:37-39). -/
def coerceFks (checks : List (String × String)) (row : Row) : Row :=
  checks.foldl
    (fun row c =>
      if hasK row c.1 then setV row c.1 (optIntV (toIntSafe ((getV row c.1).getD .vnull)))
      else row)
    row

/-- Coerce a boolean-typed business column (`'validado'` in
excel_mysql.py:188-191, `'valido'` in c.py:41-44): overwrite only when
`_to_bool_safe` returns a non-null value. -/
def coerceBoolCol (col : String) (row : Row) : Row :=
  match getV row col with
  | none => row
  | some v =>
      match toBoolSafe v with
      | none => row
      | some b => setV row col (.vbool b)

/-! ### Statements, destination table state, configuration -/

/-- An executed write statement against the destination table, recording
the column/value pairs that the generated SQL carries. -/
inductive Stmt where
  | insertInto : String → Row → Stmt
  | updateSet : String → Row → Int → Stmt
deriving DecidableEq, Repr

/-- One destination-table row: the surrogate `id` column plus the other
columns. -/
structure DestRow where
  id : Int
  fields : Row
deriving DecidableEq, Repr

/-- The destination table state. -/
abbrev Dest := List DestRow

/-- The ids present at the destination. -/
def idsOf (d : Dest) : List Int := d.map DestRow.id

/-- `SELECT 1 FROM table WHERE id = :id LIMIT 1` as a boolean. -/
def existsDest (d : Dest) (n : Int) : Bool := decide (n ∈ idsOf d)

/-- Auto-assigned id for an `INSERT` that carries no explicit id
(MySQL `AUTO_INCREMENT`, no deletes in this workload). -/
def nextAutoId (d : Dest) : Int := (idsOf d).foldl max 0 + 1

/-- Effect of `UPDATE table SET cols WHERE id = :id`. -/
def updateDest (d : Dest) (n : Int) (cs : Row) : Dest :=
  d.map (fun r => if r.id = n then { r with fields := setVs r.fields cs } else r)

/-- The non-null columns of a record (`{k: v for k, v in row.items() if v
is not None}`). -/
def nonNullCols (r : Row) : Row := r.filter (fun kv => decide (¬ kv.2 = Value.vnull))

/-- The non-null, non-id columns of a record (the `SET` columns of the
partial update, excel_mysql.py:205 / c.py:66). -/
def payloadCols (r : Row) : Row :=
  r.filter (fun kv => decide (¬ kv.1 = "id" ∧ ¬ kv.2 = Value.vnull))

/-- Static configuration of one `load_optional_table` call: destination
table name, its column set (`get_table_columns`), the declared FK
constraints in declaration order (`fk_checks.items()`), the resolver's
cached id sets per referenced table (`fk_cache`, loaded once per table and
never refreshed during the call), and a failure oracle saying which write
statements raise an execution-time exception when executed. -/
structure Cfg where
  table : String
  validCols : List String
  fkChecks : List (String × String)
  refIds : String → List Int
  fails : Stmt → Bool

/-- One FK constraint check on a (coerced) record
(excel_mysql.py:195 / c.py:50-55): the column must be present, non-null
after integer coercion, and its value a member of the referenced table's
cached id set. -/
def fkPass (refIds : String → List Int) (row : Row) (c : String × String) : Bool :=
  match getV row c.1 with
  | some (.vint n) => decide (n ∈ refIds c.2)
  | _ => false

/-- The FK gate loop: short-circuits on the first failing constraint. -/
def fkOkChecks (refIds : String → List Int) (checks : List (String × String)) (row : Row) :
    Bool :=
  match checks with
  | [] => true
  | c :: rest => if fkPass refIds row c then fkOkChecks refIds rest row else false

example :
    fkOkChecks (fun _ => [10, 11]) [("flight_id", "vuelo")] [("flight_id", .vint 11)] = true := by
  decide
example :
    fkOkChecks (fun _ => [10, 11]) [("flight_id", "vuelo")] [("flight_id", .vint 99)] = false := by
  decide
example :
    fkOkChecks (fun _ => [10, 11]) [("flight_id", "vuelo")] [("flight_id", .vnull)] = false := by
  decide

/-! ### The upsert engine: `insert_row_if_missing` and `load_optional_table` -/

/-- Result of `insert_row_if_missing`: normal return (did it insert, the
new destination state, the executed statements) or a raised execution
exception (a failed statement leaves the destination unchanged). SELECT
queries are assumed not to fail; the oracle covers write statements, which
is what the source's per-row `try/except` is about. -/
inductive InsResult where
  | ok : Bool → Dest → List Stmt → InsResult
  | raised : InsResult
deriving Repr

/-- Coerce the `id` slot of a record with `_to_int_safe` when present
(`if pk in row: row[pk] = _to_int_safe(row[pk])`, excel_mysql.py:126-127). -/
def idCoerced (r : Row) : Row :=
  if hasK r "id" then setV r "id" (optIntV (toIntSafe ((getV r "id").getD .vnull))) else r

/-- The classifier's surrogate-id coercion
(`_to_int_safe(row.get('id')) if 'id' in row else None`,
excel_mysql.py:203 / c.py:63). -/
def surrogateIdVal (r : Row) : Option Int :=
  if hasK r "id" then toIntSafe ((getV r "id").getD .vnull) else none

/-- `insert_row_if_missing` (excel_mysql.py:123-148): project the record
to the table's columns, coerce the `id` column with `_to_int_safe` if
present, keep the non-null columns; an empty column set returns `False`
with no statement; with a non-null id whose row already exists it returns
`False` with no statement; otherwise it executes one `INSERT` with exactly
the non-null columns (an explicit non-null id is inserted as the new row's
id, otherwise the destination auto-assigns one). -/
def insertRowIfMissing (cfg : Cfg) (dest : Dest) (row0 : Row) : InsResult :=
  let row := idCoerced (projectRow cfg.validCols row0)
  let cols := nonNullCols row
  if cols.isEmpty then .ok false dest []
  else
    match getV cols "id" with
    | some (.vint n) =>
        if existsDest dest n then .ok false dest []
        else
          let stmt := Stmt.insertInto cfg.table cols
          if cfg.fails stmt then .raised
          else .ok true (dest ++ [⟨n, payloadCols row⟩]) [stmt]
    | _ =>
        let stmt := Stmt.insertInto cfg.table cols
        if cfg.fails stmt then .raised
        else .ok true (dest ++ [⟨nextAutoId dest, cols⟩]) [stmt]

/-- Outcome of processing one record: destination state afterwards, the
deltas to the `inserted`/`updated`/`skipped` counters, the record appended
to `invalid_rows` (if any), and the statements executed for it. -/
structure RowRes where
  dest : Dest
  dIns : Nat
  dUpd : Nat
  dSkp : Nat
  invalidRow : Option Row
  stmts : List Stmt
deriving DecidableEq, Repr

/-- The insert arm of the classifier: wrap `insert_row_if_missing` and
bucket its outcome (excel_mysql.py:216-219 / c.py:78-81); an exception
quarantines the record (excel_mysql.py:220-222 / c.py:82-84). -/
def insFrom (cfg : Cfg) (dest : Dest) (row : Row) : RowRes :=
  match insertRowIfMissing cfg dest row with
  | .ok true d ss => ⟨d, 1, 0, 0, none, ss⟩
  | .ok false d ss => ⟨d, 0, 0, 1, none, ss⟩
  | .raised => ⟨dest, 0, 0, 0, some row, []⟩

/-- Classify and execute one already-coerced record: the FK gate
(quarantine on failure), then update-vs-insert on the surrogate id
(excel_mysql.py:193-222 / c.py:46-84, which are line-for-line the same
logic). A failing `UPDATE` or `INSERT` quarantines the record and leaves
every counter and the destination untouched. -/
def classifyExec (cfg : Cfg) (dest : Dest) (row : Row) : RowRes :=
  if fkOkChecks cfg.refIds cfg.fkChecks row then
    match surrogateIdVal row with
    | some n =>
        if existsDest dest n then
          let cols := payloadCols row
          if cols.isEmpty then ⟨dest, 0, 0, 1, none, []⟩
          else
            let stmt := Stmt.updateSet cfg.table cols n
            if cfg.fails stmt then ⟨dest, 0, 0, 0, some row, []⟩
            else ⟨updateDest dest n cols, 0, 1, 0, none, [stmt]⟩
        else insFrom cfg dest row
    | none => insFrom cfg dest row
  else ⟨dest, 0, 0, 0, some row, []⟩

/-- The coercion/projection pipeline a raw record goes through before
classification in excel_mysql.py:182-191: projection to the destination
columns, FK integer coercion, `'validado'` boolean coercion. -/
def classifiedRow (cfg : Cfg) (raw : Row) : Row :=
  coerceBoolCol "validado" (coerceFks cfg.fkChecks (projectRow cfg.validCols raw))

/-- The same pipeline in c.py:33-44: no projection (`row = r.to_dict()`),
and the boolean column is `'valido'`. -/
def cClassifiedRow (cfg : Cfg) (raw : Row) : Row :=
  coerceBoolCol "valido" (coerceFks cfg.fkChecks raw)

/-- Process one raw record of the batch (excel_mysql.py's
`load_optional_table` loop body). -/
def processRow (cfg : Cfg) (dest : Dest) (raw : Row) : RowRes :=
  classifyExec cfg dest (classifiedRow cfg raw)

/-- Process one raw record of the batch (c.py's variant). -/
def cProcessRow (cfg : Cfg) (dest : Dest) (raw : Row) : RowRes :=
  classifyExec cfg dest (cClassifiedRow cfg raw)

/-- Accumulated result of a `load_optional_table` call. -/
structure LoadRes where
  inserted : Nat
  updated : Nat
  skipped : Nat
  invalid : List Row
  dest : Dest
  stmts : List Stmt
deriving DecidableEq, Repr

/-- Fold one record's outcome into the accumulated result. -/
def stepWith (p : Dest → Row → RowRes) (st : LoadRes) (raw : Row) : LoadRes :=
  let r := p st.dest raw
  ⟨st.inserted + r.dIns, st.updated + r.dUpd, st.skipped + r.dSkp,
   st.invalid ++ r.invalidRow.toList, r.dest, st.stmts ++ r.stmts⟩

/-- Run the per-row loop from a given accumulated state. -/
def runFrom (cfg : Cfg) (st : LoadRes) (df : List Row) : LoadRes :=
  df.foldl (stepWith (processRow cfg)) st

/-- `load_optional_table` (excel_mysql.py:150-224), modelled from the
point where the per-row loop is reached (the early returns for a missing
destination or referenced table yield `(0, 0, 0, [])` without touching
state and are not part of the loop). -/
def loadOptionalTable (cfg : Cfg) (dest : Dest) (df : List Row) : LoadRes :=
  runFrom cfg ⟨0, 0, 0, [], dest, []⟩ df

/-- The c.py variant of the loop (c.py:3-87). -/
def cRunFrom (cfg : Cfg) (st : LoadRes) (df : List Row) : LoadRes :=
  df.foldl (stepWith (cProcessRow cfg)) st

/-- `load_optional_table` as defined in c.py. -/
def cLoadOptionalTable (cfg : Cfg) (dest : Dest) (df : List Row) : LoadRes :=
  cRunFrom cfg ⟨0, 0, 0, [], dest, []⟩ df

/-! ### The `ticket_aereo` staged bulk merge (run_etl, excel_mysql.py:344-448) -/

/-- One incoming ticket record after the column rename, restricted to the
six columns the merge knows how to stage (`insert_cols`,
excel_mysql.py:409); the `id` column is dropped before staging
(excel_mysql.py:400-402). -/
structure StageTicket where
  pnr : Value
  pasajero_id : Value
  vuelo_id : Value
  asiento : Value
  estado_ticket : Value
  fecha_emision : Value
deriving DecidableEq, Repr

/-- One `ticket_aereo` destination row. -/
structure TicketRow where
  id : Int
  pnr : Value
  pasajero_id : Value
  vuelo_id : Value
  asiento : Value
  estado_ticket : Value
  fecha_emision : Value
deriving DecidableEq, Repr

/-- `df_ticket['pasajero_id'].apply(_to_int_safe)` and the same for
`vuelo_id` (excel_mysql.py:346-347). -/
def coerceTicketIds (t : StageTicket) : StageTicket :=
  { t with
    pasajero_id := optIntV (toIntSafe t.pasajero_id)
    vuelo_id := optIntV (toIntSafe t.vuelo_id) }

/-- `df_ticket.drop_duplicates(subset=['pnr'])` (excel_mysql.py:351):
pandas' default `keep='first'` keeps the first occurrence of each `pnr`
key and drops the later ones (pandas treats two nulls as equal here). -/
def dedupByPnr (seen : List Value) : List StageTicket → List StageTicket
  | [] => []
  | t :: ts =>
      if t.pnr ∈ seen then dedupByPnr seen ts
      else t :: dedupByPnr (t.pnr :: seen) ts

/-- The FK validity filter on tickets (excel_mysql.py:359): the coerced
`pasajero_id` is in the `pasajero` id set and the coerced `vuelo_id` is in
the `vuelo` id set (a null id is in neither). -/
def fkValidTicket (pas vue : List Int) (t : StageTicket) : Bool :=
  (match t.pasajero_id with
   | .vint p => decide (p ∈ pas)
   | _ => false) &&
  (match t.vuelo_id with
   | .vint v => decide (v ∈ vue)
   | _ => false)

/-- SQL equality used by the natural-key joins `ON t.pnr = ts.pnr`: a SQL
`NULL` never compares equal to anything. -/
def sqlEq (a b : Value) : Bool :=
  match a, b with
  | .vnull, _ => false
  | _, .vnull => false
  | x, y => decide (x = y)

/-- The set-based `INSERT ... SELECT ... LEFT JOIN ... WHERE t.id IS NULL`
(excel_mysql.py:412-419): append one new destination row per staging row
whose `pnr` has no match at the destination, auto-assigning ids in staging
order. -/
def ticketInsert (dest : List TicketRow) (stage : List StageTicket) : List TicketRow :=
  stage.foldl
    (fun d ts =>
      if d.any (fun t => sqlEq t.pnr ts.pnr) then d
      else
        d ++ [⟨(d.map TicketRow.id).foldl max 0 + 1,
               ts.pnr, ts.pasajero_id, ts.vuelo_id, ts.asiento, ts.estado_ticket,
               ts.fecha_emision⟩])
    dest

/-- The set-based `UPDATE ticket_aereo t JOIN staging ts ON t.pnr = ts.pnr`
(excel_mysql.py:423-431): every destination row with a `pnr` match gets
`pasajero_id`, `vuelo_id`, `asiento` and `estado_ticket` overwritten from
the staging row (`fecha_emision` is not updated). -/
def ticketUpdate (dest : List TicketRow) (stage : List StageTicket) : List TicketRow :=
  dest.map
    (fun t =>
      match stage.find? (fun ts => sqlEq t.pnr ts.pnr) with
      | some ts =>
          { t with
            pasajero_id := ts.pasajero_id
            vuelo_id := ts.vuelo_id
            asiento := ts.asiento
            estado_ticket := ts.estado_ticket }
      | none => t)

/-- The whole `ticket_aereo` phase on its data path (excel_mysql.py:
344-432): coerce the two FK id columns, deduplicate on `pnr`, split on FK
validity, stage the valid rows, then run the set-based insert followed by
the set-based update (the update join also sees the freshly inserted rows,
on which it rewrites the same values). Returns the new destination state
and the invalid rows exported by the caller. -/
def ticketMerge (pas vue : List Int) (dest : List TicketRow) (df : List StageTicket) :
    List TicketRow × List StageTicket :=
  let df := df.map coerceTicketIds
  let df := dedupByPnr [] df
  let valid := df.filter (fkValidTicket pas vue)
  let invalid := df.filter (fun t => ¬ fkValidTicket pas vue t)
  (ticketUpdate (ticketInsert dest valid) valid, invalid)

/-! ### The staging phase's try/except/finally control flow
(excel_mysql.py:370-448) -/

/-- Observable events of the staging phase, in program order: attempted
store operations and emitted log records. `logCleanupError` is in the
vocabulary but the code never emits it: the drop's failure handler is
`except Exception: pass` (excel_mysql.py:447-448). -/
inductive MergeEv where
  | createStaging : MergeEv
  | logStagingCreated : MergeEv
  | bulkLoad : MergeEv
  | logLoaded : MergeEv
  | insertStmt : MergeEv
  | updateStmt : MergeEv
  | logCounts : MergeEv
  | logMergeError : MergeEv
  | dropAttempt : MergeEv
  | logStagingDropped : MergeEv
  | logCleanupError : MergeEv
deriving DecidableEq, Repr

/-- The staging phase's event trace as a function of which operations
succeed: the body runs until the first failing operation, whose exception
is caught by the `except` clause (one `log.error`); the `finally` clause
always attempts the drop, logging success and silently swallowing a drop
failure. -/
def stagingPhase (createOk bulkOk insOk updOk dropOk : Bool) : List MergeEv :=
  let body :=
    if ¬ createOk then [MergeEv.createStaging, MergeEv.logMergeError]
    else if ¬ bulkOk then
      [MergeEv.createStaging, MergeEv.logStagingCreated, MergeEv.bulkLoad,
       MergeEv.logMergeError]
    else if ¬ insOk then
      [MergeEv.createStaging, MergeEv.logStagingCreated, MergeEv.bulkLoad, MergeEv.logLoaded,
       MergeEv.insertStmt, MergeEv.logMergeError]
    else if ¬ updOk then
      [MergeEv.createStaging, MergeEv.logStagingCreated, MergeEv.bulkLoad, MergeEv.logLoaded,
       MergeEv.insertStmt, MergeEv.updateStmt, MergeEv.logMergeError]
    else
      [MergeEv.createStaging, MergeEv.logStagingCreated, MergeEv.bulkLoad, MergeEv.logLoaded,
       MergeEv.insertStmt, MergeEv.updateStmt, MergeEv.logCounts]
  body ++ (if dropOk then [MergeEv.dropAttempt, MergeEv.logStagingDropped]
           else [MergeEv.dropAttempt])

/-- The per-phase counters reported by the log line at excel_mysql.py:434:
they exist exactly when the whole body succeeded, and are computed before
the cleanup phase runs. -/
def stagingReport (createOk bulkOk insOk updOk : Bool) (ins upd : Nat) : Option (Nat × Nat) :=
  if createOk && bulkOk && insOk && updOk then some (ins, upd) else none

/-! ### Write-effect abstraction used to reason about re-running a batch

For a record whose surrogate id coerces to a non-null integer, the
destination-state effect of processing it is fully determined by the
record alone: the pair of that id and the non-null non-id columns.
Whether those columns are applied as an `UPDATE` on the existing row or
become the field set of a freshly `INSERT`ed row depends only on whether
the id is already present. The bridge lemmas below prove this
characterisation against `loadOptionalTable` itself. -/

/-- The state-independent write effect of one record, when its surrogate
id coerces: the id and the non-null non-id columns. `none` for records
that fail the FK gate or carry no coercible id. -/
def effectOf (cfg : Cfg) (raw : Row) : Option (Int × Row) :=
  let row := classifiedRow cfg raw
  if fkOkChecks cfg.refIds cfg.fkChecks row then
    match surrogateIdVal row with
    | some n => some (n, payloadCols row)
    | none => none
  else none

/-- Apply one write effect to the destination: update the rows carrying
the id if present (a no-op update when the column list is empty, matching
the classifier's skip), else append a new row with those columns. -/
def applyEffect (d : Dest) (e : Int × Row) : Dest :=
  if existsDest d e.1 then updateDest d e.1 e.2 else d ++ [⟨e.1, e.2⟩]

/-- Apply a list of write effects in order. -/
def applyEffects (d : Dest) (es : List (Int × Row)) : Dest := es.foldl applyEffect d

/-- The effects of a batch, in batch order. -/
def effectsOf (cfg : Cfg) (df : List Row) : List (Int × Row) :=
  df.filterMap (effectOf cfg)

/-- The last value a column list assigns to a key (a SQL `SET` list
assigns each column once; on a raw list the last assignment wins). -/
def lastVal (cs : Row) (k : String) : Option Value := getV cs.reverse k

/-- The last value a list of effects writes into row `n`, column `k`. -/
def lastWrite : List (Int × Row) → Int → String → Option Value
  | [], _, _ => none
  | e :: es, n, k =>
      match lastWrite es n k with
      | some v => some v
      | none => if e.1 = n then lastVal e.2 k else none

/-- The per-row transformer of one effect (how an update touches one
destination row). -/
def phiStep (e : Int × Row) (r : DestRow) : DestRow :=
  if r.id = e.1 then { r with fields := setVs r.fields e.2 } else r

/-- The per-row transformer of a list of effects. -/
def phiAll (es : List (Int × Row)) (r : DestRow) : DestRow :=
  es.foldl (fun r e => phiStep e r) r

/-! ## Basic record lemmas -/

theorem getV_cons (a : String) (w : Value) (f : Row) (k : String) :
    getV ((a, w) :: f) k = if a = k then some w else getV f k := rfl

theorem keysOf_nil : keysOf ([] : Row) = [] := rfl

theorem keysOf_cons (p : String × Value) (f : Row) : keysOf (p :: f) = p.1 :: keysOf f := rfl

theorem setV_cons (a : String) (w : Value) (f : Row) (k : String) (v : Value) :
    setV ((a, w) :: f) k v = if a = k then (k, v) :: f else (a, w) :: setV f k v := rfl

theorem getV_setV_self (f : Row) (k : String) (v : Value) : getV (setV f k v) k = some v := by
  induction f with
  | nil => simp [setV, getV]
  | cons p f ih =>
      obtain ⟨a, w⟩ := p
      rw [setV_cons]
      by_cases h : a = k
      · simp [h, getV_cons]
      · simp [h, getV_cons, ih]

theorem getV_setV_other (f : Row) (k k' : String) (v : Value) (h : k' ≠ k) :
    getV (setV f k v) k' = getV f k' := by
  induction f with
  | nil => simp [setV, getV, Ne.symm h]
  | cons p f ih =>
      obtain ⟨a, w⟩ := p
      rw [setV_cons]
      by_cases ha : a = k
      · subst ha
        simp [getV_cons, Ne.symm h]
      · rw [if_neg ha, getV_cons]
        by_cases hk : a = k'
        · simp [hk, getV_cons]
        · simp [hk, ih, getV_cons]

theorem getV_isSome_iff_mem_keys (f : Row) (k : String) :
    (getV f k).isSome = true ↔ k ∈ keysOf f := by
  induction f with
  | nil => simp [getV, keysOf_nil]
  | cons p f ih =>
      obtain ⟨a, w⟩ := p
      rw [getV_cons, keysOf_cons]
      by_cases h : a = k
      · simp [h]
      · simp only [h, if_false, List.mem_cons]
        rw [ih]
        constructor
        · exact fun hm => Or.inr hm
        · rintro (hm | hm)
          · exact absurd hm.symm h
          · exact hm

theorem keysOf_setV_isSome (f : Row) (k : String) (v : Value) (h : (getV f k).isSome = true) :
    keysOf (setV f k v) = keysOf f := by
  induction f with
  | nil => simp [getV] at h
  | cons p f ih =>
      obtain ⟨a, w⟩ := p
      rw [setV_cons]
      by_cases ha : a = k
      · simp [ha, keysOf_cons]
      · rw [getV_cons] at h
        simp only [ha, if_false] at h ⊢
        rw [keysOf_cons, keysOf_cons, ih h]

theorem keysOf_setV_none (f : Row) (k : String) (v : Value) (h : getV f k = none) :
    keysOf (setV f k v) = keysOf f ++ [k] := by
  induction f with
  | nil => simp [setV, keysOf]
  | cons p f ih =>
      obtain ⟨a, w⟩ := p
      rw [setV_cons]
      rw [getV_cons] at h
      by_cases ha : a = k
      · simp [ha] at h
      · simp only [ha, if_false] at h ⊢
        rw [keysOf_cons, keysOf_cons, ih h]
        rfl

theorem getV_append (a b : Row) (k : String) :
    getV (a ++ b) k = match getV a k with | some v => some v | none => getV b k := by
  induction a with
  | nil => simp [getV]
  | cons p a ih =>
      obtain ⟨x, w⟩ := p
      rw [List.cons_append, getV_cons, getV_cons]
      by_cases h : x = k
      · simp [h]
      · simp [h, ih]

theorem getV_none_of_not_mem_keys (f : Row) (k : String) (h : k ∉ keysOf f) :
    getV f k = none := by
  cases hg : getV f k with
  | none => rfl
  | some v =>
      exact absurd ((getV_isSome_iff_mem_keys f k).mp (by simp [hg])) h

theorem setVs_cons (f : Row) (c : String × Value) (cs : Row) :
    setVs f (c :: cs) = setVs (setV f c.1 c.2) cs := rfl

theorem lastVal_cons (c : String × Value) (cs : Row) (k : String) :
    lastVal (c :: cs) k =
      match lastVal cs k with
      | some v => some v
      | none => if c.1 = k then some c.2 else none := by
  simp only [lastVal, List.reverse_cons, getV_append]
  obtain ⟨a, w⟩ := c
  cases getV cs.reverse k <;> simp [getV_cons, getV]

theorem getV_setVs (f cs : Row) (k : String) :
    getV (setVs f cs) k =
      match lastVal cs k with | some v => some v | none => getV f k := by
  induction cs generalizing f with
  | nil => simp [setVs, lastVal, getV]
  | cons c cs ih =>
      rw [setVs_cons, ih, lastVal_cons]
      cases hl : lastVal cs k with
      | some v => simp
      | none =>
          by_cases hk : c.1 = k
          · simp [hk, hk ▸ getV_setV_self f c.1 c.2]
          · simp [hk, getV_setV_other f c.1 k c.2 (fun hh => hk hh.symm)]

theorem keysOf_setVs_of_subset (f cs : Row) (h : ∀ k ∈ keysOf cs, k ∈ keysOf f) :
    keysOf (setVs f cs) = keysOf f := by
  induction cs generalizing f with
  | nil => simp [setVs]
  | cons c cs ih =>
      have hc : c.1 ∈ keysOf f := h c.1 (by rw [keysOf_cons]; exact List.mem_cons_self _ _)
      have hk : keysOf (setV f c.1 c.2) = keysOf f :=
        keysOf_setV_isSome f c.1 c.2 ((getV_isSome_iff_mem_keys f c.1).mpr hc)
      rw [setVs_cons, ih (setV f c.1 c.2)
        (by
          rw [hk]
          intro a ha
          exact h a (by rw [keysOf_cons]; exact List.mem_cons_of_mem _ ha))]
      exact hk

theorem mem_keys_setVs_right (f cs : Row) (k : String) (h : k ∈ keysOf cs) :
    k ∈ keysOf (setVs f cs) := by
  rw [← getV_isSome_iff_mem_keys]
  rw [getV_setVs]
  have : (lastVal cs k).isSome = true := by
    rw [lastVal, getV_isSome_iff_mem_keys]
    simpa [keysOf] using h
  cases hl : lastVal cs k with
  | some v => simp
  | none => rw [hl] at this; simp at this

theorem getV_filter_some (f : Row) (p : String × Value → Bool) (k : String) (v : Value)
    (hg : getV f k = some v) (hp : p (k, v) = true) :
    getV (f.filter p) k = some v := by
  induction f with
  | nil => simp [getV] at hg
  | cons q f ih =>
      obtain ⟨a, w⟩ := q
      rw [getV_cons] at hg
      by_cases ha : a = k
      · subst ha
        have hwv : w = v := by simpa using hg
        subst hwv
        rw [List.filter_cons, if_pos hp, getV_cons, if_pos rfl]
      · rw [if_neg ha] at hg
        rw [List.filter_cons]
        by_cases hq : p (a, w) = true
        · rw [if_pos hq, getV_cons, if_neg ha]
          exact ih hg
        · rw [if_neg (by simpa using hq)]
          exact ih hg

theorem getV_filter_none (f : Row) (p : String × Value → Bool) (k : String)
    (hg : getV f k = none) :
    getV (f.filter p) k = none := by
  induction f with
  | nil => simp [getV]
  | cons q f ih =>
      obtain ⟨a, w⟩ := q
      rw [getV_cons] at hg
      by_cases ha : a = k
      · simp [ha] at hg
      · rw [if_neg ha] at hg
        rw [List.filter_cons]
        by_cases hq : p (a, w) = true
        · rw [if_pos hq, getV_cons, if_neg ha]
          exact ih hg
        · rw [if_neg (by simpa using hq)]
          exact ih hg

theorem getV_filter_dropped (f : Row) (p : String × Value → Bool) (k : String) (v : Value)
    (hnd : (keysOf f).Nodup) (hg : getV f k = some v) (hp : p (k, v) = false) :
    getV (f.filter p) k = none := by
  induction f with
  | nil => simp [getV] at hg
  | cons q f ih =>
      obtain ⟨a, w⟩ := q
      rw [keysOf_cons, List.nodup_cons] at hnd
      rw [getV_cons] at hg
      by_cases ha : a = k
      · subst ha
        have hwv : w = v := by simpa using hg
        subst hwv
        rw [List.filter_cons, if_neg (by simp [hp])]
        exact getV_filter_none f p a (getV_none_of_not_mem_keys f a hnd.1)
      · rw [if_neg ha] at hg
        rw [List.filter_cons]
        by_cases hq : p (a, w) = true
        · rw [if_pos hq, getV_cons, if_neg ha]
          exact ih hnd.2 hg
        · rw [if_neg (by simpa using hq)]
          exact ih hnd.2 hg

theorem keysOf_filter_sublist (f : Row) (p : String × Value → Bool) :
    (keysOf (f.filter p)).Sublist (keysOf f) :=
  (List.filter_sublist f).map Prod.fst

theorem nodup_keys_filter (f : Row) (p : String × Value → Bool) (h : (keysOf f).Nodup) :
    (keysOf (f.filter p)).Nodup :=
  (keysOf_filter_sublist f p).nodup h

theorem nodup_keys_setV (f : Row) (k : String) (v : Value) (h : (keysOf f).Nodup) :
    (keysOf (setV f k v)).Nodup := by
  by_cases hs : (getV f k).isSome = true
  · rw [keysOf_setV_isSome f k v hs]; exact h
  · have hn : getV f k = none := by cases hg : getV f k <;> simp [hg] at hs ⊢
    rw [keysOf_setV_none f k v hn]
    have hk : k ∉ keysOf f := by
      intro hm
      rw [← getV_isSome_iff_mem_keys] at hm
      simp [hn] at hm
    simpa [List.nodup_append] using ⟨h, hk⟩

theorem nodup_keys_setVs (f cs : Row) (h : (keysOf f).Nodup) :
    (keysOf (setVs f cs)).Nodup := by
  induction cs generalizing f with
  | nil => simpa [setVs]
  | cons c cs ih =>
      rw [setVs_cons]
      exact ih _ (nodup_keys_setV f c.1 c.2 h)

theorem lastVal_eq_getV_of_nodup (cs : Row) (k : String) (h : (keysOf cs).Nodup) :
    lastVal cs k = getV cs k := by
  induction cs with
  | nil => simp [lastVal, getV]
  | cons c cs ih =>
      obtain ⟨a, w⟩ := c
      rw [keysOf_cons, List.nodup_cons] at h
      rw [lastVal_cons, getV_cons, ih h.2]
      by_cases ha : a = k
      · subst ha
        have : getV cs a = none := getV_none_of_not_mem_keys cs a h.1
        rw [this]
      · rw [if_neg ha]
        cases getV cs k <;> simp [ha]

theorem row_ext (f g : Row) (hk : keysOf f = keysOf g) (hnd : (keysOf f).Nodup)
    (hv : ∀ k, getV f k = getV g k) : f = g := by
  induction f generalizing g with
  | nil =>
      cases g with
      | nil => rfl
      | cons q g => simp [keysOf_nil, keysOf_cons] at hk
  | cons p f ih =>
      cases g with
      | nil => simp [keysOf_nil, keysOf_cons] at hk
      | cons q g =>
          obtain ⟨a, w⟩ := p
          obtain ⟨b, u⟩ := q
          rw [keysOf_cons, keysOf_cons] at hk
          have hab : a = b := by simpa using congrArg (fun l => l.headI) hk
          subst hab
          have htk : keysOf f = keysOf g := by simpa using hk
          rw [keysOf_cons, List.nodup_cons] at hnd
          have hwu : w = u := by
            have := hv a
            rw [getV_cons, getV_cons, if_pos rfl, if_pos rfl] at this
            simpa using this
          subst hwu
          have htv : ∀ k, getV f k = getV g k := by
            intro k
            by_cases hak : a = k
            · subst hak
              rw [getV_none_of_not_mem_keys f a hnd.1,
                getV_none_of_not_mem_keys g a (htk ▸ hnd.1)]
            · have := hv k
              rwa [getV_cons, getV_cons, if_neg hak, if_neg hak] at this
          rw [ih g htk hnd.2 htv]

theorem map_eq_self_of_forall {α : Type} (l : List α) (f : α → α) (h : ∀ x ∈ l, f x = x) :
    l.map f = l := by
  induction l with
  | nil => rfl
  | cons x l ih =>
      rw [List.map_cons, h x (List.mem_cons_self x l), ih (fun y hy => h y (List.mem_cons_of_mem x hy))]

theorem mem_keys_setVs_left (f cs : Row) (k : String) (h : k ∈ keysOf f) :
    k ∈ keysOf (setVs f cs) := by
  induction cs generalizing f with
  | nil => simpa [setVs]
  | cons c cs ih =>
      rw [setVs_cons]
      refine ih (setV f c.1 c.2) ?_
      by_cases hs : (getV f c.1).isSome = true
      · rw [keysOf_setV_isSome f c.1 c.2 hs]; exact h
      · rw [keysOf_setV_none f c.1 c.2 (by cases hg : getV f c.1 <;> simp [hg] at hs ⊢)]
        exact List.mem_append_left _ h

/-! ## Pipeline lemmas: projection and coercion -/

theorem keysOf_coerceBoolCol (col : String) (r : Row) :
    keysOf (coerceBoolCol col r) = keysOf r := by
  unfold coerceBoolCol
  split
  · rfl
  next v hg =>
    split
    · rfl
    next b hb => exact keysOf_setV_isSome r col _ (by simp [hg])

theorem coerceFks_cons (c : String × String) (checks : List (String × String)) (r : Row) :
    coerceFks (c :: checks) r =
      coerceFks checks
        (if hasK r c.1 then setV r c.1 (optIntV (toIntSafe ((getV r c.1).getD .vnull)))
         else r) := rfl

theorem keysOf_coerceFks (checks : List (String × String)) (r : Row) :
    keysOf (coerceFks checks r) = keysOf r := by
  induction checks generalizing r with
  | nil => rfl
  | cons c checks ih =>
      rw [coerceFks_cons]
      by_cases h : hasK r c.1 = true
      · rw [if_pos h, ih]
        exact keysOf_setV_isSome r c.1 _ (by simpa [hasK] using h)
      · rw [if_neg h, ih]

theorem keysOf_idCoerced (r : Row) : keysOf (idCoerced r) = keysOf r := by
  unfold idCoerced
  by_cases h : hasK r "id" = true
  · rw [if_pos h]
    exact keysOf_setV_isSome r "id" _ (by simpa [hasK] using h)
  · rw [if_neg h]

theorem keysOf_classifiedRow (cfg : Cfg) (raw : Row) :
    keysOf (classifiedRow cfg raw) = keysOf (projectRow cfg.validCols raw) := by
  unfold classifiedRow
  rw [keysOf_coerceBoolCol, keysOf_coerceFks]

theorem keysOf_cClassifiedRow (cfg : Cfg) (raw : Row) :
    keysOf (cClassifiedRow cfg raw) = keysOf raw := by
  unfold cClassifiedRow
  rw [keysOf_coerceBoolCol, keysOf_coerceFks]

theorem mem_valid_of_mem_keys_projectRow (valid : List String) (r : Row) (k : String)
    (h : k ∈ keysOf (projectRow valid r)) : k ∈ valid := by
  unfold projectRow at h
  unfold keysOf at h
  obtain ⟨⟨a, w⟩, hm, hk⟩ := List.mem_map.mp h
  have := List.of_mem_filter hm
  simp only [decide_eq_true_eq] at this
  exact hk ▸ this

theorem mem_keys_classifiedRow_valid (cfg : Cfg) (raw : Row) (k : String)
    (h : k ∈ keysOf (classifiedRow cfg raw)) : k ∈ cfg.validCols := by
  rw [keysOf_classifiedRow] at h
  exact mem_valid_of_mem_keys_projectRow cfg.validCols raw k h

theorem projectRow_projectRow (valid : List String) (r : Row) :
    projectRow valid (projectRow valid r) = projectRow valid r := by
  unfold projectRow
  rw [List.filter_filter]
  congr 1
  funext kv
  cases h : decide (kv.1 ∈ valid) <;> simp [h]

theorem projectRow_eq_self (valid : List String) (r : Row)
    (h : ∀ k ∈ keysOf r, k ∈ valid) : projectRow valid r = r := by
  unfold projectRow
  rw [List.filter_eq_self]
  intro kv hm
  simp only [decide_eq_true_eq]
  exact h kv.1 (List.mem_map.mpr ⟨kv, hm, rfl⟩)

theorem projectRow_classifiedRow (cfg : Cfg) (raw : Row) :
    projectRow cfg.validCols (classifiedRow cfg raw) = classifiedRow cfg raw :=
  projectRow_eq_self cfg.validCols _ (mem_keys_classifiedRow_valid cfg raw)

theorem keysOf_projectRow_sublist (valid : List String) (r : Row) :
    (keysOf (projectRow valid r)).Sublist (keysOf r) :=
  (List.filter_sublist r).map Prod.fst

theorem nodup_keys_classifiedRow (cfg : Cfg) (raw : Row) (h : (keysOf raw).Nodup) :
    (keysOf (classifiedRow cfg raw)).Nodup := by
  rw [keysOf_classifiedRow]
  exact (keysOf_projectRow_sublist cfg.validCols raw).nodup h

theorem payloadCols_setV_id (r : Row) (v : Value) :
    payloadCols (setV r "id" v) = payloadCols r := by
  induction r with
  | nil =>
      show List.filter _ [("id", v)] = List.filter _ []
      simp [payloadCols]
  | cons p r ih =>
      obtain ⟨a, w⟩ := p
      rw [setV_cons]
      by_cases ha : a = "id"
      · subst ha
        rw [if_pos rfl]
        unfold payloadCols
        rw [List.filter_cons, List.filter_cons]
        simp
      · rw [if_neg ha]
        unfold payloadCols at ih ⊢
        rw [List.filter_cons, List.filter_cons, ih]

theorem payloadCols_idCoerced (r : Row) : payloadCols (idCoerced r) = payloadCols r := by
  unfold idCoerced
  by_cases h : hasK r "id" = true
  · rw [if_pos h, payloadCols_setV_id]
  · rw [if_neg h]

/-! ## FK gate lemmas -/

theorem fkOkChecks_eq_all (refIds : String → List Int) (checks : List (String × String))
    (row : Row) : fkOkChecks refIds checks row = checks.all (fkPass refIds row) := by
  induction checks with
  | nil => rfl
  | cons c checks ih =>
      show (if fkPass refIds row c then fkOkChecks refIds checks row else false) = _
      rw [List.all_cons]
      cases h : fkPass refIds row c
      · simp
      · simpa using ih

theorem fkOkChecks_false_of_mem (refIds : String → List Int) (checks : List (String × String))
    (row : Row) (c : String × String) (hc : c ∈ checks) (hf : fkPass refIds row c = false) :
    fkOkChecks refIds checks row = false := by
  rw [fkOkChecks_eq_all]
  cases hall : checks.all (fkPass refIds row)
  · rfl
  · have := List.all_eq_true.mp hall c hc
    rw [hf] at this
    cases this

/-! ## Outcome partition: every record lands in exactly one bucket -/

theorem classifyExec_delta (cfg : Cfg) (dest : Dest) (row : Row) :
    (classifyExec cfg dest row).dIns + (classifyExec cfg dest row).dUpd +
      (classifyExec cfg dest row).dSkp +
      (classifyExec cfg dest row).invalidRow.toList.length = 1 := by
  unfold classifyExec insFrom
  by_cases hfk : fkOkChecks cfg.refIds cfg.fkChecks row = true
  · cases hid : surrogateIdVal row with
    | none =>
        cases hins : insertRowIfMissing cfg dest row with
        | ok b d ss => cases b <;> simp [hfk, hins]
        | raised => simp [hfk, hins]
    | some n =>
        by_cases hex : existsDest dest n = true
        · by_cases hpc : payloadCols row = []
          · simp [hfk, hex, hpc]
          · by_cases hfl : cfg.fails (Stmt.updateSet cfg.table (payloadCols row) n) = true
            · simp [hfk, hex, hpc, hfl]
            · simp [hfk, hex, hpc, hfl]
        · cases hins : insertRowIfMissing cfg dest row with
          | ok b d ss => cases b <;> simp [hfk, hex, hins]
          | raised => simp [hfk, hex, hins]
  · simp [hfk]

theorem runFrom_cons (cfg : Cfg) (st : LoadRes) (raw : Row) (rest : List Row) :
    runFrom cfg st (raw :: rest) = runFrom cfg (stepWith (processRow cfg) st raw) rest := rfl

theorem cRunFrom_cons (cfg : Cfg) (st : LoadRes) (raw : Row) (rest : List Row) :
    cRunFrom cfg st (raw :: rest) = cRunFrom cfg (stepWith (cProcessRow cfg) st raw) rest := rfl

theorem runFrom_counts (cfg : Cfg) (df : List Row) : ∀ st : LoadRes,
    (runFrom cfg st df).inserted + (runFrom cfg st df).updated + (runFrom cfg st df).skipped +
      (runFrom cfg st df).invalid.length =
    st.inserted + st.updated + st.skipped + st.invalid.length + df.length := by
  induction df with
  | nil => intro st; simp [runFrom]
  | cons raw rest ih =>
      intro st
      rw [runFrom_cons, ih]
      have hd := classifyExec_delta cfg st.dest (classifiedRow cfg raw)
      simp only [stepWith, processRow, List.length_append, List.length_cons]
      omega

theorem cRunFrom_counts (cfg : Cfg) (df : List Row) : ∀ st : LoadRes,
    (cRunFrom cfg st df).inserted + (cRunFrom cfg st df).updated + (cRunFrom cfg st df).skipped +
      (cRunFrom cfg st df).invalid.length =
    st.inserted + st.updated + st.skipped + st.invalid.length + df.length := by
  induction df with
  | nil => intro st; simp [cRunFrom]
  | cons raw rest ih =>
      intro st
      rw [cRunFrom_cons, ih]
      have hd := classifyExec_delta cfg st.dest (cClassifiedRow cfg raw)
      simp only [stepWith, cProcessRow, List.length_append, List.length_cons]
      omega

theorem fkOkChecks_perm (refIds : String → List Int) (row : Row)
    (checks1 checks2 : List (String × String)) (hp : checks1.Perm checks2) :
    fkOkChecks refIds checks1 row = fkOkChecks refIds checks2 row := by
  rw [fkOkChecks_eq_all, fkOkChecks_eq_all]
  cases h1 : checks1.all (fkPass refIds row) <;> cases h2 : checks2.all (fkPass refIds row)
  · rfl
  · exfalso
    rw [List.all_eq_true] at h2
    rw [← Bool.not_eq_true, List.all_eq_true] at h1
    push_neg at h1
    obtain ⟨c, hc, hcf⟩ := h1
    exact hcf (h2 c (hp.mem_iff.mp hc))
  · exfalso
    rw [List.all_eq_true] at h1
    rw [← Bool.not_eq_true, List.all_eq_true] at h2
    push_neg at h2
    obtain ⟨c, hc, hcf⟩ := h2
    exact hcf (h1 c (hp.mem_iff.mpr hc))
  · rfl

theorem fkPass_false_of_bad (refIds : String → List Int) (row : Row) (c : String × String)
    (h : getV row c.1 = none ∨ getV row c.1 = some Value.vnull
      ∨ ∃ n, getV row c.1 = some (Value.vint n) ∧ n ∉ refIds c.2) :
    fkPass refIds row c = false := by
  unfold fkPass
  rcases h with h | h | ⟨n, h, hn⟩
  · rw [h]
  · rw [h]
  · rw [h]
    simp [hn]

/-- C2: a record with a declared FK constraint column that is missing
after projection, null after integer coercion (which is where non-numeric
values end up), or whose coerced value is not in the resolver's cached id
set for the referenced table, is appended to the invalid collection as-is
and no INSERT or UPDATE is executed for it — the destination, the three
counters and the statement trace are untouched and the loop continues
with the rest of the batch; the gate short-circuits on a failing head
constraint, and its outcome is invariant under permutation of the
constraint list. -/
theorem C2_fk_gate (cfg : Cfg) (st : LoadRes) (raw : Row) (c : String × String)
    (hc : c ∈ cfg.fkChecks)
    (hfail : getV (classifiedRow cfg raw) c.1 = none
      ∨ getV (classifiedRow cfg raw) c.1 = some Value.vnull
      ∨ ∃ n, getV (classifiedRow cfg raw) c.1 = some (Value.vint n) ∧ n ∉ cfg.refIds c.2) :
    processRow cfg st.dest raw =
        ⟨st.dest, 0, 0, 0, some (classifiedRow cfg raw), []⟩
  ∧ (∀ rest, runFrom cfg st (raw :: rest) =
        runFrom cfg
          ⟨st.inserted, st.updated, st.skipped, st.invalid ++ [classifiedRow cfg raw],
           st.dest, st.stmts⟩ rest)
  ∧ (∀ others, fkOkChecks cfg.refIds (c :: others) (classifiedRow cfg raw) = false)
  ∧ (∀ (row : Row) (checks1 checks2 : List (String × String)), checks1.Perm checks2 →
        fkOkChecks cfg.refIds checks1 row = fkOkChecks cfg.refIds checks2 row) := by
  have hpass : fkPass cfg.refIds (classifiedRow cfg raw) c = false :=
    fkPass_false_of_bad cfg.refIds _ c hfail
  have hfk : fkOkChecks cfg.refIds cfg.fkChecks (classifiedRow cfg raw) = false :=
    fkOkChecks_false_of_mem cfg.refIds cfg.fkChecks _ c hc hpass
  have hpr : processRow cfg st.dest raw =
      ⟨st.dest, 0, 0, 0, some (classifiedRow cfg raw), []⟩ := by
    unfold processRow classifyExec
    rw [if_neg (by rw [hfk]; exact Bool.false_ne_true)]
  refine ⟨hpr, ?_, ?_, ?_⟩
  · intro rest
    rw [runFrom_cons]
    congr 1
    simp [stepWith, hpr]
  · intro others
    show (if fkPass cfg.refIds (classifiedRow cfg raw) c then _ else false) = false
    rw [hpass]
    simp
  · intro row checks1 checks2 hp
    exact fkOkChecks_perm cfg.refIds row checks1 checks2 hp

theorem C2_fk_gate_witness :
    processRow ⟨"t", ["tk"], [("tk", "r")], fun _ => [5], fun _ => false⟩ [] [("tk", .vstr "9")] =
      ⟨[], 0, 0, 0,
       some (classifiedRow ⟨"t", ["tk"], [("tk", "r")], fun _ => [5], fun _ => false⟩
         [("tk", .vstr "9")]), []⟩ :=
  (C2_fk_gate ⟨"t", ["tk"], [("tk", "r")], fun _ => [5], fun _ => false⟩ ⟨0, 0, 0, [], [], []⟩
    [("tk", .vstr "9")] ("tk", "r") (by decide)
    (Or.inr (Or.inr ⟨9, by decide, by decide⟩))).1

/-- C7 (amended): in excel_mysql.py's `load_optional_table`, every record
entering classification carries only known destination columns — unknown
fields are silently dropped by the projection, with no effect whatsoever
on the record's outcome (in particular they never cause a quarantine);
the c.py variant, however, performs no projection: the record enters
classification with exactly its original key set, unknown fields
included. -/
theorem C7_projection_before_classification (cfg : Cfg) (dest : Dest) (raw : Row) :
    (∀ k ∈ keysOf (classifiedRow cfg raw), k ∈ cfg.validCols)
  ∧ processRow cfg dest raw = processRow cfg dest (projectRow cfg.validCols raw)
  ∧ keysOf (cClassifiedRow cfg raw) = keysOf raw := by
  refine ⟨mem_keys_classifiedRow_valid cfg raw, ?_, keysOf_cClassifiedRow cfg raw⟩
  unfold processRow
  congr 1
  unfold classifiedRow
  rw [projectRow_projectRow]

theorem C7_projection_witness : "a" ∈ ["a"] :=
  (C7_projection_before_classification ⟨"t", ["a"], [], fun _ => [], fun _ => false⟩ []
    [("a", .vint 1), ("zz", .vint 2)]).1 "a" (by decide)

/-- C7 counterexample: in the c.py variant of `load_optional_table`, a
record with the unknown field `zz` reaches the classifier with that field
intact, and the executed UPDATE's SET clause carries the unknown column —
unknown fields are not dropped before classification there. -/
theorem C7_counterexample :
    (cProcessRow ⟨"t", ["id", "a"], [], fun _ => [], fun _ => false⟩
        [⟨1, [("a", .vstr "old")]⟩] [("id", .vstr "1"), ("zz", .vstr "junk")]).stmts =
      [Stmt.updateSet "t" [("zz", Value.vstr "junk")] 1]
  ∧ "zz" ∉ ["id", "a"]
  ∧ "zz" ∈ keysOf (cClassifiedRow ⟨"t", ["id", "a"], [], fun _ => [], fun _ => false⟩
        [("id", .vstr "1"), ("zz", .vstr "junk")]) := by
  refine ⟨by decide, by decide, by decide⟩

/-- C10: whenever the per-row loop of `load_optional_table` is reached,
every input row of the batch is counted in exactly one of the four
outcomes, so `inserted + updated + skipped + |invalid_rows|` equals the
number of input rows; this holds for the excel_mysql.py loop and for the
c.py variant alike, for any destination state, any configuration and any
failure pattern. -/
theorem C10_outcome_partition (cfg : Cfg) (dest : Dest) (df : List Row) :
    (loadOptionalTable cfg dest df).inserted + (loadOptionalTable cfg dest df).updated +
        (loadOptionalTable cfg dest df).skipped +
        (loadOptionalTable cfg dest df).invalid.length = df.length
  ∧ (cLoadOptionalTable cfg dest df).inserted + (cLoadOptionalTable cfg dest df).updated +
        (cLoadOptionalTable cfg dest df).skipped +
        (cLoadOptionalTable cfg dest df).invalid.length = df.length := by
  constructor
  · have := runFrom_counts cfg df ⟨0, 0, 0, [], dest, []⟩
    simpa [loadOptionalTable] using this
  · have := cRunFrom_counts cfg df ⟨0, 0, 0, [], dest, []⟩
    simpa [cLoadOptionalTable] using this

/-! ## Integer coercion: the `_to_int_safe` contract (C5) -/

theorem isWhitespace_false_of_isDigit (c : Char) (h : c.isDigit = true) :
    c.isWhitespace = false := by
  cases hw : c.isWhitespace
  · rfl
  · exfalso
    have : c = ' ' ∨ c = '\t' ∨ c = '\x0d' ∨ c = '\n' := by
      simpa [Char.isWhitespace, or_assoc] using hw
    rcases this with rfl | rfl | rfl | rfl <;> exact absurd h (by decide)

theorem dropWhile_ws_eq_self (cs : List Char) (h : ∀ c ∈ cs, c.isWhitespace = false) :
    cs.dropWhile Char.isWhitespace = cs := by
  cases cs with
  | nil => rfl
  | cons c t =>
      rw [List.dropWhile_cons, if_neg (by simp [h c (List.mem_cons_self c t)])]

theorem pyStrip_eq_self (cs : List Char) (h : ∀ c ∈ cs, c.isWhitespace = false) :
    pyStrip cs = cs := by
  unfold pyStrip
  rw [dropWhile_ws_eq_self cs h,
    dropWhile_ws_eq_self cs.reverse (fun c hc => h c (List.mem_reverse.mp hc)),
    List.reverse_reverse]

theorem digitsVal_append_singleton (l : List Char) (c : Char) :
    digitsVal (l ++ [c]) = digitsVal l * 10 + (c.toNat - 48) := by
  unfold digitsVal
  rw [List.foldl_append]
  rfl

theorem digitsVal_eq_ofDigits (l : List Char) :
    digitsVal l = Nat.ofDigits 10 (l.reverse.map (fun c => c.toNat - 48)) := by
  induction l using List.reverseRecOn with
  | nil => simp [digitsVal]
  | append_singleton t c ih =>
      rw [digitsVal_append_singleton, ih, List.reverse_append]
      simp [Nat.ofDigits_cons]
      ring

theorem log2Fuel_char : ∀ fuel n : Nat, 1 ≤ n → n < 2 ^ fuel →
    2 ^ log2Fuel fuel n ≤ n ∧ n < 2 ^ (log2Fuel fuel n + 1) := by
  intro fuel
  induction fuel with
  | zero =>
      intro n h1 h2
      norm_num at h2
      omega
  | succ f ih =>
      intro n h1 h2
      by_cases hbig : 2 ^ 64 ≤ n
      · have hrec : log2Fuel (f + 1) n = log2Fuel f (n / 2 ^ 64) + 64 := by
          show (if 2 ^ 64 ≤ n then log2Fuel f (n / 2 ^ 64) + 64
                else if 2 ≤ n then log2Fuel f (n / 2) + 1 else 0) = _
          rw [if_pos hbig]
        have hd1 : 1 ≤ n / 2 ^ 64 := (Nat.one_le_div_iff (by positivity)).mpr hbig
        have hd2 : n / 2 ^ 64 < 2 ^ f := by
          have hn2 : n < 2 ^ f * 2 ^ 64 := by
            have h2' : n < 2 ^ f * 2 := by rw [← pow_succ]; exact h2
            have : (2:Nat) ^ f * 2 ≤ 2 ^ f * 2 ^ 64 :=
              Nat.mul_le_mul_left _ (by norm_num)
            omega
          exact (Nat.div_lt_iff_lt_mul (by positivity)).mpr hn2
        obtain ⟨ha, hb⟩ := ih (n / 2 ^ 64) hd1 hd2
        rw [hrec]
        have hq1 : (2:Nat) ^ (log2Fuel f (n / 2 ^ 64) + 64)
            = 2 ^ log2Fuel f (n / 2 ^ 64) * 2 ^ 64 := pow_add 2 _ _
        have hq2 : (2:Nat) ^ (log2Fuel f (n / 2 ^ 64) + 64 + 1)
            = 2 ^ log2Fuel f (n / 2 ^ 64) * 2 ^ 65 := by
          rw [show log2Fuel f (n / 2 ^ 64) + 64 + 1 = log2Fuel f (n / 2 ^ 64) + 65 from rfl,
            pow_add]
        have hq3 : (2:Nat) ^ (log2Fuel f (n / 2 ^ 64) + 1)
            = 2 ^ log2Fuel f (n / 2 ^ 64) * 2 := pow_succ 2 _
        constructor
        · rw [hq1]
          omega
        · rw [hq2]
          omega
      · by_cases hn2 : 2 ≤ n
        · have hrec : log2Fuel (f + 1) n = log2Fuel f (n / 2) + 1 := by
            show (if 2 ^ 64 ≤ n then log2Fuel f (n / 2 ^ 64) + 64
                  else if 2 ≤ n then log2Fuel f (n / 2) + 1 else 0) = _
            rw [if_neg hbig, if_pos hn2]
          have hd1 : 1 ≤ n / 2 := by omega
          have hd2 : n / 2 < 2 ^ f := by
            have h2' : n < 2 ^ f * 2 := by rw [← pow_succ]; exact h2
            omega
          obtain ⟨ha, hb⟩ := ih (n / 2) hd1 hd2
          rw [hrec]
          rw [pow_succ] at hb
          constructor
          · rw [pow_succ]
            omega
          · rw [pow_succ, pow_succ]
            omega
        · have hn1 : n = 1 := by omega
          subst hn1
          have hrec : log2Fuel (f + 1) 1 = 0 := by
            show (if 2 ^ 64 ≤ 1 then log2Fuel f (1 / 2 ^ 64) + 64
                  else if 2 ≤ 1 then log2Fuel f (1 / 2) + 1 else 0) = _
            norm_num
          rw [hrec]
          norm_num

theorem findE_good (fuel n d : Nat) (hd : 1 ≤ d) (h52 : 2 ^ 52 * d ≤ n)
    (hnf : n < 2 ^ fuel) (hdf : d < 2 ^ fuel) :
    goodE n d (findE fuel n d) = true := by
  have hn : 1 ≤ n := by
    have : 0 < 2 ^ 52 * d := by positivity
    omega
  obtain ⟨h1a, h1b⟩ := log2Fuel_char fuel n hn hnf
  obtain ⟨h2a, h2b⟩ := log2Fuel_char fuel d hd hdf
  simp only [findE]
  set L1 := log2Fuel fuel n with hL1
  set L2 := log2Fuel fuel d with hL2
  set est := L1 - (L2 + 53) with hest
  have hA : 2 ^ 52 * (d * 2 ^ est) ≤ n := by
    by_cases hc : L2 + 53 ≤ L1
    · have hexp : 52 + ((L2 + 1) + est) = L1 := by omega
      have step1 : 2 ^ 52 * (d * 2 ^ est) < 2 ^ 52 * (2 ^ (L2 + 1) * 2 ^ est) := by
        have hin : d * 2 ^ est < 2 ^ (L2 + 1) * 2 ^ est :=
          Nat.mul_lt_mul_of_lt_of_le h2b (le_refl _) (by positivity)
        exact (Nat.mul_lt_mul_left (by positivity)).mpr hin
      have step2 : 2 ^ 52 * (2 ^ (L2 + 1) * 2 ^ est) = 2 ^ L1 := by
        rw [← pow_add, ← pow_add, hexp]
      omega
    · have hest0 : est = 0 := by omega
      rw [hest0]
      simpa using h52
  have hB : n < 2 ^ 53 * (d * 2 ^ (est + 2)) := by
    have hle : L1 + 1 ≤ 53 + (L2 + (est + 2)) := by omega
    calc n < 2 ^ (L1 + 1) := h1b
      _ ≤ 2 ^ (53 + (L2 + (est + 2))) := Nat.pow_le_pow_right (by norm_num) hle
      _ = 2 ^ 53 * (2 ^ L2 * 2 ^ (est + 2)) := by rw [pow_add, pow_add]
      _ ≤ 2 ^ 53 * (d * 2 ^ (est + 2)) :=
          Nat.mul_le_mul_left _ (Nat.mul_le_mul_right _ h2a)
  have hstep : ∀ e : Nat, (2:Nat) ^ 52 * (d * 2 ^ (e + 1)) = 2 ^ 53 * (d * 2 ^ e) := by
    intro e
    rw [pow_succ, pow_succ]
    ring
  by_cases hg1 : goodE n d est = true
  · rw [if_pos hg1]
    exact hg1
  · have h53est : 2 ^ 53 * (d * 2 ^ est) ≤ n := by
      rcases Nat.lt_or_ge n (2 ^ 53 * (d * 2 ^ est)) with h | h
      · exact absurd (by simp only [goodE, decide_eq_true_eq]; exact ⟨hA, h⟩) hg1
      · exact h
    rw [if_neg hg1]
    by_cases hg2 : goodE n d (est + 1) = true
    · rw [if_pos hg2]
      exact hg2
    · have h52e1 : 2 ^ 52 * (d * 2 ^ (est + 1)) ≤ n := by rw [hstep]; exact h53est
      have h53e1 : 2 ^ 53 * (d * 2 ^ (est + 1)) ≤ n := by
        rcases Nat.lt_or_ge n (2 ^ 53 * (d * 2 ^ (est + 1))) with h | h
        · exact absurd (by simp only [goodE, decide_eq_true_eq]; exact ⟨h52e1, h⟩) hg2
        · exact h
      rw [if_neg hg2]
      have h52e2 : 2 ^ 52 * (d * 2 ^ (est + 2)) ≤ n := by
        have h21 : est + 2 = (est + 1) + 1 := rfl
        rw [h21, hstep]
        exact h53e1
      simp only [goodE, decide_eq_true_eq]
      exact ⟨h52e2, hB⟩

theorem roundHalfEven_mul (a den : Nat) (h : 0 < den) :
    roundHalfEven (a * den) den = a := by
  simp only [roundHalfEven]
  rw [Nat.mul_mod_left, Nat.mul_div_cancel _ h]
  simp [h]

theorem findE_exact (V D fuel N : Nat) (hD : 1 ≤ D) (hV : 1 ≤ V) (hlt : V < 2 ^ 53)
    (hN : N = V * D * 2 ^ 1400) (hNf : N < 2 ^ fuel) (hDf : D < 2 ^ fuel) :
    findE fuel N D ≤ 1400 ∧
    roundHalfEven N (D * 2 ^ findE fuel N D) = V * 2 ^ (1400 - findE fuel N D) ∧
    V * 2 ^ (1400 - findE fuel N D) < 2 ^ 53 := by
  have h52 : 2 ^ 52 * D ≤ N := by
    have hp : (2:Nat) ^ 52 ≤ 2 ^ 1400 := Nat.pow_le_pow_right (by norm_num) (by norm_num)
    have h1 : 2 ^ 52 * D ≤ 2 ^ 1400 * D := Nat.mul_le_mul_right _ hp
    have h2 : 2 ^ 1400 * D ≤ V * D * 2 ^ 1400 := by
      have : 1 * (2 ^ 1400 * D) ≤ V * (2 ^ 1400 * D) := Nat.mul_le_mul_right _ hV
      calc 2 ^ 1400 * D = 1 * (2 ^ 1400 * D) := by ring
        _ ≤ V * (2 ^ 1400 * D) := this
        _ = V * D * 2 ^ 1400 := by ring
    rw [hN]
    omega
  have hgood := findE_good fuel N D hD h52 hNf hDf
  set E := findE fuel N D with hE
  simp only [goodE, decide_eq_true_eq] at hgood
  obtain ⟨hlow, hhigh⟩ := hgood
  have hE14 : E ≤ 1400 := by
    by_contra hgt
    push_neg at hgt
    have h1 : (2:Nat) ^ 1401 ≤ 2 ^ E := Nat.pow_le_pow_right (by norm_num) hgt
    have h2 : N < 2 ^ 53 * (D * 2 ^ 1400) := by
      rw [hN, mul_assoc]
      exact (Nat.mul_lt_mul_right (by positivity)).mpr hlt
    have h3 : (2:Nat) ^ 53 * (D * 2 ^ 1400) = 2 ^ 52 * (D * 2 ^ 1401) := by
      rw [pow_succ, pow_succ]
      ring
    have h4 : 2 ^ 52 * (D * 2 ^ 1401) ≤ 2 ^ 52 * (D * 2 ^ E) :=
      Nat.mul_le_mul_left _ (Nat.mul_le_mul_left _ h1)
    omega
  have hfact : N = V * 2 ^ (1400 - E) * (D * 2 ^ E) := by
    have hp : (2:Nat) ^ 1400 = 2 ^ (1400 - E) * 2 ^ E := by
      rw [← pow_add]
      congr 1
      omega
    rw [hN, hp]
    ring
  have hround : roundHalfEven N (D * 2 ^ E) = V * 2 ^ (1400 - E) := by
    rw [hfact, roundHalfEven_mul _ _ (by positivity)]
  refine ⟨hE14, hround, ?_⟩
  have hh := hhigh
  rw [hfact] at hh
  have hh2 : V * 2 ^ (1400 - E) * (D * 2 ^ E) < 2 ^ 53 * (D * 2 ^ E) := hh
  exact lt_of_mul_lt_mul_right hh2 (Nat.zero_le _)

theorem pyFloatTruncInt_exact (V g len : Nat) (hV : 1 ≤ V) (hlt : V < 2 ^ 53)
    (hg : g ≤ len) :
    pyFloatTruncInt false (V * 10 ^ g) (-(g : Int)) len = some (V : Int) := by
  have hMpos : 0 < V * 10 ^ g := Nat.mul_pos (by omega) (by positivity)
  have hM : ¬ (V * 10 ^ g = 0) := by omega
  have h310 : ¬ ((310 : Int) ≤ -(g : Int)) := by omega
  have h400 : ¬ ((len : Int) + -(g : Int) ≤ -400) := by omega
  have ht1 : (-(g : Int)).toNat = 0 := by omega
  have ht2 : (- -(g : Int)).toNat = g := by omega
  simp only [pyFloatTruncInt]
  rw [if_neg hM, if_neg h310, if_neg h400, ht1, ht2]
  have h10 : (10:Nat) ^ g ≤ 2 ^ (4 * g) := by
    have h16 : (10:Nat) ^ g ≤ 16 ^ g := Nat.pow_le_pow_left (by norm_num) g
    have he : (16:Nat) ^ g = 2 ^ (4 * g) := by
      rw [show (16:Nat) = 2 ^ 4 from by norm_num, ← pow_mul]
    omega
  have hNf : V * 10 ^ g * 10 ^ 0 * 2 ^ 1400 < 2 ^ (4 * len + 2500) := by
    have hb1 : V * 10 ^ g < 2 ^ 53 * 2 ^ (4 * g) := by
      have hs1 : V * 10 ^ g < 2 ^ 53 * 10 ^ g :=
        Nat.mul_lt_mul_of_lt_of_le hlt (le_refl _) (by positivity)
      have hs2 : (2:Nat) ^ 53 * 10 ^ g ≤ 2 ^ 53 * 2 ^ (4 * g) :=
        Nat.mul_le_mul_left _ h10
      omega
    have hb2 : V * 10 ^ g * 10 ^ 0 * 2 ^ 1400 < 2 ^ 53 * 2 ^ (4 * g) * 2 ^ 1400 := by
      have hq : V * 10 ^ g * 10 ^ 0 * 2 ^ 1400 = V * 10 ^ g * 2 ^ 1400 := by ring
      rw [hq]
      exact Nat.mul_lt_mul_of_lt_of_le hb1 (le_refl _) (by positivity)
    have hb3 : (2:Nat) ^ 53 * 2 ^ (4 * g) * 2 ^ 1400 = 2 ^ (53 + 4 * g + 1400) := by
      rw [pow_add, pow_add]
    have hb4 : (2:Nat) ^ (53 + 4 * g + 1400) ≤ 2 ^ (4 * len + 2500) :=
      Nat.pow_le_pow_right (by norm_num) (by omega)
    omega
  have hDf : 10 ^ g < 2 ^ (4 * len + 2500) := by
    have : (2:Nat) ^ (4 * g) < 2 ^ (4 * len + 2500) :=
      Nat.pow_lt_pow_right (by norm_num) (by omega)
    omega
  obtain ⟨hE14, hround, hsmall⟩ :=
    findE_exact V (10 ^ g) (4 * len + 2500) (V * 10 ^ g * 10 ^ 0 * 2 ^ 1400)
      (Nat.one_le_pow g 10 (by norm_num)) hV hlt (by ring) hNf hDf
  set E := findE (4 * len + 2500) (V * 10 ^ g * 10 ^ 0 * 2 ^ 1400) (10 ^ g) with hE
  rw [hround]
  have hne53 : ¬ (V * 2 ^ (1400 - E) = 2 ^ 53) := by omega
  simp only [if_neg hne53]
  rw [if_neg (show ¬ (2372 ≤ E) by omega)]
  by_cases h14 : 1400 ≤ E
  · have hEeq : E = 1400 := le_antisymm hE14 h14
    rw [if_pos h14, hEeq]
    norm_num
  · rw [if_neg h14, Nat.mul_div_cancel _ (by positivity)]
    norm_num

theorem digitRunAux_nil (acc cnt : Nat) (u : Bool) :
    digitRunAux acc cnt u [] = if u then none else some (acc, cnt, []) := rfl

theorem digitRunAux_cons (acc cnt : Nat) (u : Bool) (c : Char) (rest : List Char) :
    digitRunAux acc cnt u (c :: rest) =
      if c.isDigit then digitRunAux (acc * 10 + (c.toNat - 48)) (cnt + 1) false rest
      else if c = '_' then
        if u || cnt = 0 then none else digitRunAux acc cnt true rest
      else if u then none else some (acc, cnt, c :: rest) := rfl

theorem digitRunAux_digits : ∀ (l r : List Char), (∀ c ∈ l, c.isDigit = true) →
    (r = [] ∨ ∃ c t, r = c :: t ∧ c.isDigit = false ∧ c ≠ '_') →
    ∀ acc cnt : Nat, digitRunAux acc cnt false (l ++ r) =
      some (l.foldl (fun a c => a * 10 + (c.toNat - 48)) acc, cnt + l.length, r) := by
  intro l
  induction l with
  | nil =>
      intro r hl hr acc cnt
      rcases hr with rfl | ⟨c, t, rfl, hcd, hcu⟩
      · simp [digitRunAux_nil]
      · rw [List.nil_append, digitRunAux_cons, if_neg (by simp [hcd]), if_neg hcu,
          if_neg (by simp)]
        simp
  | cons a l ih =>
      intro r hl hr acc cnt
      have had : a.isDigit = true := hl a (List.mem_cons_self a l)
      have hl' : ∀ c ∈ l, c.isDigit = true := fun c hc => hl c (List.mem_cons_of_mem a hc)
      rw [List.cons_append, digitRunAux_cons, if_pos had,
        ih r hl' hr (acc * 10 + (a.toNat - 48)) (cnt + 1)]
      have hc1 : cnt + 1 + l.length = cnt + (a :: l).length := by
        simp [List.length_cons]
        omega
      rw [hc1]
      rfl

theorem digitsVal_zeros : ∀ m : List Char, (∀ c ∈ m, c = '0') → digitsVal m = 0 := by
  intro m
  induction m with
  | nil => intro _; rfl
  | cons c t ih =>
      intro h
      have hc : c = '0' := h c (List.mem_cons_self c t)
      subst hc
      show digitsVal t = 0
      exact ih fun c hc => h c (List.mem_cons_of_mem _ hc)

theorem splitSign_no_sign (c : Char) (t : List Char) (h1 : c ≠ '-') (h2 : c ≠ '+') :
    splitSign (c :: t) = (false, c :: t) := by
  simp [splitSign, h1, h2]

theorem parseAfterSign_cons (neg : Bool) (c : Char) (t : List Char) :
    parseAfterSign neg (c :: t) =
      if c.isDigit then
        match digitRunAux 0 0 false (c :: t) with
        | some (M1, c1, rest) => parseTail neg c1 (parseFrac M1 rest)
        | none => none
      else if c = '.' then
        match t with
        | [] => none
        | c2 :: _ =>
            if c2.isDigit then
              match digitRunAux 0 0 false t with
              | some (M2, f, rest) => parseTail neg 0 (M2, f, rest)
              | none => none
            else none
      else none := rfl

theorem parseFrac_nil (M1 : Nat) : parseFrac M1 [] = (M1, 0, []) := rfl

theorem parseFrac_cons (M1 : Nat) (c : Char) (t : List Char) :
    parseFrac M1 (c :: t) =
      if c = '.' then
        match t with
        | [] => (M1, 0, [])
        | c2 :: _ =>
            if c2.isDigit then
              match digitRunAux 0 0 false t with
              | some (M2, f, r) => (M1 * 10 ^ f + M2, f, r)
              | none => (M1, 0, t)
            else (M1, 0, t)
      else (M1, 0, c :: t) := rfl

theorem parsePyNumber_digits (l : List Char) (hne : l ≠ []) (h : ∀ c ∈ l, c.isDigit = true) :
    parsePyNumber l = some (false, digitsVal l, 0, l.length) := by
  obtain ⟨c, t, rfl⟩ := List.exists_cons_of_ne_nil hne
  have hc : c.isDigit = true := h c (List.mem_cons_self c t)
  have h1 : c ≠ '-' := by rintro rfl; exact absurd hc (by decide)
  have h2 : c ≠ '+' := by rintro rfl; exact absurd hc (by decide)
  unfold parsePyNumber
  rw [splitSign_no_sign c t h1 h2]
  show parseAfterSign false (c :: t) = _
  rw [parseAfterSign_cons, if_pos hc]
  have hrun := digitRunAux_digits (c :: t) [] h (Or.inl rfl) 0 0
  rw [List.append_nil] at hrun
  simp only [hrun, parseFrac_nil, parseTail, parseExpPart]
  simp [digitsVal]

theorem parsePyNumber_point (l m : List Char) (hne : l ≠ []) (hl : ∀ c ∈ l, c.isDigit = true)
    (hm : ∀ c ∈ m, c.isDigit = true) :
    parsePyNumber (l ++ '.' :: m) =
      some (false, digitsVal l * 10 ^ m.length + digitsVal m, -(m.length : Int),
        l.length + m.length) := by
  obtain ⟨c, t, rfl⟩ := List.exists_cons_of_ne_nil hne
  have hc : c.isDigit = true := hl c (List.mem_cons_self c t)
  have h1 : c ≠ '-' := by rintro rfl; exact absurd hc (by decide)
  have h2 : c ≠ '+' := by rintro rfl; exact absurd hc (by decide)
  rw [List.cons_append]
  unfold parsePyNumber
  rw [splitSign_no_sign c (t ++ '.' :: m) h1 h2]
  show parseAfterSign false (c :: (t ++ '.' :: m)) = _
  rw [parseAfterSign_cons, if_pos hc]
  have hrun := digitRunAux_digits (c :: t) ('.' :: m) hl
    (Or.inr ⟨'.', m, rfl, by decide, by decide⟩) 0 0
  rw [List.cons_append] at hrun
  simp only [hrun, parseFrac_cons, if_pos rfl]
  cases m with
  | nil =>
      simp only [parseTail, parseExpPart]
      simp [digitsVal]
  | cons c2 m' =>
      have hc2 : c2.isDigit = true := hm c2 (List.mem_cons_self c2 m')
      simp only [if_pos hc2]
      have hrun2 := digitRunAux_digits (c2 :: m') [] hm (Or.inl rfl) 0 0
      rw [List.append_nil] at hrun2
      simp only [hrun2, parseTail, parseExpPart]
      simp [digitsVal]

theorem toIntSafe_digits_small (l : List Char) (hne : l ≠ [])
    (h : ∀ c ∈ l, c.isDigit = true) (hb : digitsVal l < 2 ^ 53) :
    toIntSafe (.vstr (String.mk l)) = some ((digitsVal l : Nat) : Int) := by
  have hws : ∀ c ∈ l, c.isWhitespace = false :=
    fun c hc => isWhitespace_false_of_isDigit c (h c hc)
  show (if (pyStrip l).isEmpty then none else parseTruncInt (pyStrip l)) = _
  rw [pyStrip_eq_self l hws, if_neg (by simpa using hne)]
  simp only [parseTruncInt, parsePyNumber_digits l hne h]
  by_cases h0 : digitsVal l = 0
  · rw [h0]
    simp [pyFloatTruncInt]
  · have := pyFloatTruncInt_exact (digitsVal l) 0 l.length (by omega) hb (Nat.zero_le _)
    simpa using this

theorem toIntSafe_point_zeros (l m : List Char) (hne : l ≠ [])
    (hl : ∀ c ∈ l, c.isDigit = true) (hm : ∀ c ∈ m, c = '0')
    (hb : digitsVal l < 2 ^ 53) :
    toIntSafe (.vstr (String.mk (l ++ '.' :: m))) = some ((digitsVal l : Nat) : Int) := by
  have hmdig : ∀ c ∈ m, c.isDigit = true := by
    intro c hc
    rw [hm c hc]
    decide
  have hws : ∀ c ∈ l ++ '.' :: m, c.isWhitespace = false := by
    intro c hc
    rcases List.mem_append.mp hc with hc | hc
    · exact isWhitespace_false_of_isDigit c (hl c hc)
    · rcases List.mem_cons.mp hc with rfl | hc
      · decide
      · exact isWhitespace_false_of_isDigit c (hmdig c hc)
  show (if (pyStrip (l ++ '.' :: m)).isEmpty then none
        else parseTruncInt (pyStrip (l ++ '.' :: m))) = _
  rw [pyStrip_eq_self _ hws,
    if_neg (by cases l with | nil => exact absurd rfl hne | cons a t => simp)]
  simp only [parseTruncInt, parsePyNumber_point l m hne hl hmdig]
  rw [digitsVal_zeros m hm, Nat.add_zero]
  by_cases h0 : digitsVal l = 0
  · rw [h0, Nat.zero_mul]
    simp [pyFloatTruncInt]
  · exact pyFloatTruncInt_exact (digitsVal l) m.length (l.length + m.length) (by omega) hb
      (by omega)

/-- C5 (amended): `_to_int_safe` is total (embedded as a total function into
`Option`, mirroring that every failure path returns `None`): null input
gives null; string input is stripped of surrounding whitespace (a leading
or trailing space never changes the result, and an empty or all-whitespace
string gives null).  Since the coercion is `int(float(s))`, a numeric
string passes through an IEEE-754 binary64 double: a digit string whose
value lies below `2^53` (the double's exact integer range) gives exactly
its integer value (checked against Mathlib's independent `Nat.ofDigits`),
and appending a zero fraction `.0...0` never changes that result
("3.0" yields 3); beyond `2^53` the numeral is rounded to the double's
53-bit precision first ("12345678901234567890" yields 12345678901234567168,
not the exact truncated integer); exponent and underscore numerals accepted
by `float()` are converted ("1e3" yields 1000, "1_0" yields 10); a numeral
overflowing the double range makes `int()` raise, giving null ("1.8e308");
and non-numeric strings give null ("" / "   " / "yes" / "12x"). -/
theorem C5_to_int_safe_contract :
    toIntSafe .vnull = none
  ∧ (∀ s : String, (∀ c ∈ s.data, c.isWhitespace = true) → toIntSafe (.vstr s) = none)
  ∧ (∀ cs : List Char,
        toIntSafe (.vstr (String.mk (' ' :: cs))) = toIntSafe (.vstr (String.mk cs))
      ∧ toIntSafe (.vstr (String.mk (cs ++ [' ']))) = toIntSafe (.vstr (String.mk cs)))
  ∧ (∀ l : List Char, l ≠ [] → (∀ c ∈ l, c.isDigit = true) →
        Nat.ofDigits 10 (l.reverse.map (fun c => c.toNat - 48)) < 2 ^ 53 →
        toIntSafe (.vstr (String.mk l)) =
          some ((Nat.ofDigits 10 (l.reverse.map (fun c => c.toNat - 48)) : Nat) : Int))
  ∧ (∀ l m : List Char, l ≠ [] → (∀ c ∈ l, c.isDigit = true) → (∀ c ∈ m, c = '0') →
        Nat.ofDigits 10 (l.reverse.map (fun c => c.toNat - 48)) < 2 ^ 53 →
        toIntSafe (.vstr (String.mk (l ++ '.' :: m))) = toIntSafe (.vstr (String.mk l)))
  ∧ toIntSafe (.vstr "3.0") = some 3 ∧ toIntSafe (.vstr "") = none
  ∧ toIntSafe (.vstr "   ") = none ∧ toIntSafe (.vstr " 42 ") = some 42
  ∧ toIntSafe (.vstr "-7.9") = some (-7) ∧ toIntSafe (.vstr "yes") = none
  ∧ toIntSafe (.vstr "12x") = none
  ∧ toIntSafe (.vstr "1e3") = some 1000 ∧ toIntSafe (.vstr "1_0") = some 10
  ∧ toIntSafe (.vstr "12345678901234567890") = some 12345678901234567168
  ∧ toIntSafe (.vstr "1.8e308") = none := by
  refine ⟨rfl, ?_, ?_, ?_, ?_, by decide, by decide, by decide, by decide, by decide,
    by decide, by decide, by decide, by decide, by decide, by decide⟩
  · intro s h
    show (if (pyStrip s.data).isEmpty then none else parseTruncInt (pyStrip s.data)) = none
    have hp : pyStrip s.data = [] := by
      unfold pyStrip
      rw [List.dropWhile_eq_nil_iff.mpr h]
      rfl
    rw [hp]
    rfl
  · intro cs
    constructor
    · have hp : pyStrip (' ' :: cs) = pyStrip cs := by
        unfold pyStrip
        rw [List.dropWhile_cons, if_pos (by decide)]
      show (if (pyStrip (' ' :: cs)).isEmpty then none else parseTruncInt (pyStrip (' ' :: cs)))
        = (if (pyStrip cs).isEmpty then none else parseTruncInt (pyStrip cs))
      rw [hp]
    · have hp : pyStrip (cs ++ [' ']) = pyStrip cs := by
        unfold pyStrip
        rw [List.dropWhile_append]
        by_cases hd : (cs.dropWhile Char.isWhitespace).isEmpty = true
        · rw [if_pos hd]
          have hcs : cs.dropWhile Char.isWhitespace = [] := by simpa using hd
          rw [hcs]
          rfl
        · rw [if_neg hd, List.reverse_append]
          show ((' ' :: (cs.dropWhile Char.isWhitespace).reverse).dropWhile
              Char.isWhitespace).reverse = _
          rw [List.dropWhile_cons, if_pos (by decide)]
      show (if (pyStrip (cs ++ [' '])).isEmpty then none
            else parseTruncInt (pyStrip (cs ++ [' '])))
        = (if (pyStrip cs).isEmpty then none else parseTruncInt (pyStrip cs))
      rw [hp]
  · intro l hne h hb
    have hb' : digitsVal l < 2 ^ 53 := by rw [digitsVal_eq_ofDigits]; exact hb
    rw [toIntSafe_digits_small l hne h hb', digitsVal_eq_ofDigits]
  · intro l m hne hl hm hb
    have hb' : digitsVal l < 2 ^ 53 := by rw [digitsVal_eq_ofDigits]; exact hb
    rw [toIntSafe_point_zeros l m hne hl hm hb', toIntSafe_digits_small l hne hl hb']

theorem C5_to_int_safe_contract_witness :
    toIntSafe (.vstr (String.mk ['4', '2'])) =
      some ((Nat.ofDigits 10 (['4', '2'].reverse.map (fun c => c.toNat - 48)) : Nat) : Int) :=
  C5_to_int_safe_contract.2.2.2.1 ['4', '2'] (by decide) (by decide) (by decide)

/-- C5 counterexample: the claim says `_to_int_safe` returns the truncated
integer for ANY numeric string, but for the 20-digit numeral
"12345678901234567890" the code computes `int(float(s))`, and the value
rounds through the binary64 double to 12345678901234567168, which is not
the numeral's truncated integer 12345678901234567890. -/
theorem C5_counterexample :
    toIntSafe (.vstr "12345678901234567890") = some 12345678901234567168 ∧
    ¬ ((12345678901234567168 : Int) = 12345678901234567890) :=
  ⟨by decide, by decide⟩

/-! ## Boolean coercion: the `_to_bool_safe` contract (C6) -/

/-- C6: `_to_bool_safe` matches its stripped, lower-cased input against the
truthy set {"1","true","t","yes","y"} extended with the locale affirmatives
{"si","sí"} and the falsy set {"0","false","f","no","n"}, returning
true/false respectively and null for anything else (including null input);
and the classifier's boolean-column coercion overwrites the field only
when the coercion is non-null, leaving the record completely untouched
when it yields null or when the column is absent. -/
theorem C6_to_bool_safe_contract :
    (toBoolSafe (.vstr "1") = some true ∧ toBoolSafe (.vstr "true") = some true
      ∧ toBoolSafe (.vstr "t") = some true ∧ toBoolSafe (.vstr "yes") = some true
      ∧ toBoolSafe (.vstr "y") = some true ∧ toBoolSafe (.vstr "si") = some true
      ∧ toBoolSafe (.vstr "sí") = some true ∧ toBoolSafe (.vstr " TRUE ") = some true)
  ∧ (toBoolSafe (.vstr "0") = some false ∧ toBoolSafe (.vstr "false") = some false
      ∧ toBoolSafe (.vstr "f") = some false ∧ toBoolSafe (.vstr "no") = some false
      ∧ toBoolSafe (.vstr "n") = some false ∧ toBoolSafe (.vstr " No ") = some false)
  ∧ (toBoolSafe (.vstr "maybe") = none ∧ toBoolSafe (.vstr "") = none
      ∧ toBoolSafe (.vstr "2") = none ∧ toBoolSafe .vnull = none)
  ∧ (∀ (col : String) (row : Row) (v : Value), getV row col = some v → toBoolSafe v = none →
        coerceBoolCol col row = row)
  ∧ (∀ (col : String) (row : Row) (v : Value) (b : Bool), getV row col = some v →
        toBoolSafe v = some b → coerceBoolCol col row = setV row col (.vbool b))
  ∧ (∀ (col : String) (row : Row), getV row col = none → coerceBoolCol col row = row) := by
  refine ⟨by decide, by decide, by decide, ?_, ?_, ?_⟩
  · intro col row v h1 h2
    unfold coerceBoolCol
    rw [h1]
    show (match toBoolSafe v with
          | none => row
          | some b => setV row col (Value.vbool b)) = row
    rw [h2]
  · intro col row v b h1 h2
    unfold coerceBoolCol
    rw [h1]
    show (match toBoolSafe v with
          | none => row
          | some b => setV row col (Value.vbool b)) = setV row col (Value.vbool b)
    rw [h2]
  · intro col row h
    unfold coerceBoolCol
    rw [h]

theorem C6_to_bool_safe_contract_witness :
    coerceBoolCol "validado" [("validado", Value.vstr "quizas")] =
      [("validado", Value.vstr "quizas")] :=
  C6_to_bool_safe_contract.2.2.2.1 "validado" [("validado", Value.vstr "quizas")]
    (Value.vstr "quizas") (by decide) (by decide)

/-! ## Classifier characterisation lemmas -/

theorem getV_idCoerced_of_some (row : Row) (n : Int) (hid : surrogateIdVal row = some n) :
    getV (idCoerced row) "id" = some (.vint n) := by
  unfold surrogateIdVal at hid
  by_cases hk : hasK row "id" = true
  · rw [if_pos hk] at hid
    unfold idCoerced
    rw [if_pos hk, hid]
    exact getV_setV_self row "id" (optIntV (some n))
  · rw [if_neg hk] at hid
    cases hid

theorem getV_idCoerced_of_none (row : Row) (hid : surrogateIdVal row = none)
    (hnd : (keysOf row).Nodup) :
    getV (nonNullCols (idCoerced row)) "id" = none := by
  unfold surrogateIdVal at hid
  by_cases hk : hasK row "id" = true
  · rw [if_pos hk] at hid
    have hset : getV (idCoerced row) "id" = some Value.vnull := by
      unfold idCoerced
      rw [if_pos hk, hid]
      exact getV_setV_self row "id" (optIntV none)
    refine getV_filter_dropped (idCoerced row) _ "id" Value.vnull ?_ hset (by simp)
    rw [keysOf_idCoerced]
    exact hnd
  · rw [if_neg hk] at hid
    have hry : getV row "id" = none := by
      unfold hasK at hk
      cases hg : getV row "id"
      · rfl
      · rw [hg] at hk; simp at hk
    have : idCoerced row = row := by unfold idCoerced; rw [if_neg hk]
    rw [this]
    exact getV_filter_none row _ "id" hry

theorem getV_nonNull_id_of_some (row : Row) (n : Int) (hid : surrogateIdVal row = some n) :
    getV (nonNullCols (idCoerced row)) "id" = some (.vint n) :=
  getV_filter_some (idCoerced row) _ "id" (.vint n) (getV_idCoerced_of_some row n hid)
    (by simp)

theorem isEmpty_false_of_getV_some (f : Row) (k : String) (v : Value)
    (h : getV f k = some v) : f.isEmpty = false := by
  cases f with
  | nil => rw [show getV [] k = none from rfl] at h; cases h
  | cons a t => rfl

theorem insertRowIfMissing_explicit (cfg : Cfg) (dest : Dest) (row : Row)
    (hproj : projectRow cfg.validCols row = row)
    (n : Int) (hid : surrogateIdVal row = some n)
    (hex : existsDest dest n = false) :
    insertRowIfMissing cfg dest row =
      if cfg.fails (Stmt.insertInto cfg.table (nonNullCols (idCoerced row))) then .raised
      else .ok true (dest ++ [⟨n, payloadCols row⟩])
        [Stmt.insertInto cfg.table (nonNullCols (idCoerced row))] := by
  have hcols := getV_nonNull_id_of_some row n hid
  have hne := isEmpty_false_of_getV_some _ "id" _ hcols
  simp only [insertRowIfMissing]
  rw [hproj]
  rw [if_neg (by simp [hne]), hcols]
  show (if existsDest dest n = true then InsResult.ok false dest []
        else
          if cfg.fails (Stmt.insertInto cfg.table (nonNullCols (idCoerced row))) = true then
            InsResult.raised
          else
            InsResult.ok true (dest ++ [⟨n, payloadCols (idCoerced row)⟩])
              [Stmt.insertInto cfg.table (nonNullCols (idCoerced row))]) = _
  rw [if_neg (by simp [hex]), payloadCols_idCoerced]

theorem insertRowIfMissing_auto (cfg : Cfg) (dest : Dest) (row : Row)
    (hproj : projectRow cfg.validCols row = row)
    (hid : surrogateIdVal row = none) (hnd : (keysOf row).Nodup)
    (hne : (nonNullCols (idCoerced row)).isEmpty = false) :
    insertRowIfMissing cfg dest row =
      if cfg.fails (Stmt.insertInto cfg.table (nonNullCols (idCoerced row))) then .raised
      else .ok true (dest ++ [⟨nextAutoId dest, nonNullCols (idCoerced row)⟩])
        [Stmt.insertInto cfg.table (nonNullCols (idCoerced row))] := by
  have hcols := getV_idCoerced_of_none row hid hnd
  simp only [insertRowIfMissing]
  rw [hproj]
  rw [if_neg (by simp [hne]), hcols]

theorem insertRowIfMissing_empty (cfg : Cfg) (dest : Dest) (row : Row)
    (hproj : projectRow cfg.validCols row = row)
    (hne : (nonNullCols (idCoerced row)).isEmpty = true) :
    insertRowIfMissing cfg dest row = .ok false dest [] := by
  simp only [insertRowIfMissing]
  rw [hproj, if_pos hne]

theorem classifyExec_quarantine (cfg : Cfg) (dest : Dest) (row : Row)
    (hfk : fkOkChecks cfg.refIds cfg.fkChecks row = false) :
    classifyExec cfg dest row = ⟨dest, 0, 0, 0, some row, []⟩ := by
  unfold classifyExec
  rw [if_neg (by simp [hfk])]

theorem classifyExec_update (cfg : Cfg) (dest : Dest) (row : Row)
    (hfk : fkOkChecks cfg.refIds cfg.fkChecks row = true)
    (n : Int) (hid : surrogateIdVal row = some n) (hex : existsDest dest n = true) :
    classifyExec cfg dest row =
      if payloadCols row = [] then ⟨dest, 0, 0, 1, none, []⟩
      else
        if cfg.fails (Stmt.updateSet cfg.table (payloadCols row) n) then
          ⟨dest, 0, 0, 0, some row, []⟩
        else
          ⟨updateDest dest n (payloadCols row), 0, 1, 0, none,
           [Stmt.updateSet cfg.table (payloadCols row) n]⟩ := by
  simp only [classifyExec]
  rw [if_pos hfk, hid]
  show (if existsDest dest n = true then _ else insFrom cfg dest row) = _
  rw [if_pos hex]
  by_cases hc : payloadCols row = []
  · rw [if_pos (by simp [hc]), if_pos hc]
  · rw [if_neg (by simp [hc]), if_neg hc]

theorem classifyExec_insert_arm (cfg : Cfg) (dest : Dest) (row : Row)
    (hfk : fkOkChecks cfg.refIds cfg.fkChecks row = true)
    (hid : surrogateIdVal row = none ∨
      ∃ n, surrogateIdVal row = some n ∧ existsDest dest n = false) :
    classifyExec cfg dest row = insFrom cfg dest row := by
  simp only [classifyExec]
  rw [if_pos hfk]
  rcases hid with hid | ⟨n, hid, hex⟩
  · rw [hid]
  · rw [hid]
    show (if existsDest dest n = true then _ else insFrom cfg dest row) = _
    rw [if_neg (by simp [hex])]

/-- C1 (amended): for a well-formed record passing FK validation, absent
execution-time failures: if its surrogate id coerces to integer `n` and a
destination row with id `n` exists, exactly one UPDATE is executed and its
SET clause is exactly the record's non-null, non-id columns — and when no
such column remains, no statement runs, the skipped counter is
incremented, and nothing is updated; if its id coerces to an `n` not at
the destination, exactly one INSERT is executed; if it has no coercible
surrogate id, exactly one INSERT is executed provided at least one
non-null column remains (a record with no non-null columns at all — only
possible with an empty FK-constraint set — executes no statement and is
counted skipped, contrary to the unamended claim). -/
theorem C1_update_insert_split (cfg : Cfg) (dest : Dest) (raw : Row)
    (hf : cfg.fails = fun _ => false)
    (hnd : (keysOf raw).Nodup)
    (hok : fkOkChecks cfg.refIds cfg.fkChecks (classifiedRow cfg raw) = true) :
    (∀ n, surrogateIdVal (classifiedRow cfg raw) = some n → existsDest dest n = true →
        (payloadCols (classifiedRow cfg raw) ≠ [] →
          processRow cfg dest raw =
            ⟨updateDest dest n (payloadCols (classifiedRow cfg raw)), 0, 1, 0, none,
             [Stmt.updateSet cfg.table (payloadCols (classifiedRow cfg raw)) n]⟩)
      ∧ (payloadCols (classifiedRow cfg raw) = [] →
          processRow cfg dest raw = ⟨dest, 0, 0, 1, none, []⟩))
  ∧ (∀ n, surrogateIdVal (classifiedRow cfg raw) = some n → existsDest dest n = false →
        processRow cfg dest raw =
          ⟨dest ++ [⟨n, payloadCols (classifiedRow cfg raw)⟩], 1, 0, 0, none,
           [Stmt.insertInto cfg.table (nonNullCols (idCoerced (classifiedRow cfg raw)))]⟩)
  ∧ (surrogateIdVal (classifiedRow cfg raw) = none →
      nonNullCols (idCoerced (classifiedRow cfg raw)) ≠ [] →
        processRow cfg dest raw =
          ⟨dest ++ [⟨nextAutoId dest, nonNullCols (idCoerced (classifiedRow cfg raw))⟩],
           1, 0, 0, none,
           [Stmt.insertInto cfg.table (nonNullCols (idCoerced (classifiedRow cfg raw)))]⟩) := by
  refine ⟨?_, ?_, ?_⟩
  · intro n hid hex
    constructor
    · intro hcols
      unfold processRow
      rw [classifyExec_update cfg dest _ hok n hid hex, if_neg hcols,
        if_neg (by rw [hf]; simp)]
    · intro hcols
      unfold processRow
      rw [classifyExec_update cfg dest _ hok n hid hex, if_pos hcols]
  · intro n hid hex
    unfold processRow
    rw [classifyExec_insert_arm cfg dest _ hok (Or.inr ⟨n, hid, hex⟩)]
    unfold insFrom
    rw [insertRowIfMissing_explicit cfg dest _ (projectRow_classifiedRow cfg raw) n hid hex,
      if_neg (by rw [hf]; simp)]
  · intro hid hcols
    unfold processRow
    rw [classifyExec_insert_arm cfg dest _ hok (Or.inl hid)]
    unfold insFrom
    rw [insertRowIfMissing_auto cfg dest _ (projectRow_classifiedRow cfg raw) hid
        (by rw [keysOf_classifiedRow]
            exact (keysOf_projectRow_sublist cfg.validCols raw).nodup hnd)
        (by cases h : nonNullCols (idCoerced (classifiedRow cfg raw)) with
            | nil => exact absurd h hcols
            | cons a t => rfl),
      if_neg (by rw [hf]; simp)]

theorem C1_update_insert_split_witness :
    processRow ⟨"t", ["id", "a"], [], fun _ => [], fun _ => false⟩
        [⟨1, [("a", Value.vstr "old")]⟩] [("id", Value.vstr "1"), ("a", Value.vstr "x")] =
      ⟨updateDest [⟨1, [("a", Value.vstr "old")]⟩] 1
          (payloadCols (classifiedRow ⟨"t", ["id", "a"], [], fun _ => [], fun _ => false⟩
            [("id", Value.vstr "1"), ("a", Value.vstr "x")])),
       0, 1, 0, none,
       [Stmt.updateSet "t"
          (payloadCols (classifiedRow ⟨"t", ["id", "a"], [], fun _ => [], fun _ => false⟩
            [("id", Value.vstr "1"), ("a", Value.vstr "x")])) 1]⟩ :=
  ((C1_update_insert_split ⟨"t", ["id", "a"], [], fun _ => [], fun _ => false⟩
      [⟨1, [("a", Value.vstr "old")]⟩] [("id", Value.vstr "1"), ("a", Value.vstr "x")]
      rfl (by decide) (by decide)).1 1 (by decide) (by decide)).1 (by decide)

/-- C1 counterexample: a record with no surrogate id and no non-null
column (reachable when the FK-constraint dictionary is empty) passes FK
validation yet triggers no INSERT at all — `load_optional_table` counts it
as skipped and executes no statement, whereas the claim demands exactly
one INSERT for every FK-valid record without an id. -/
theorem C1_counterexample :
    fkOkChecks (fun _ => []) []
        (classifiedRow ⟨"t", ["a"], [], fun _ => [], fun _ => false⟩ [("a", Value.vnull)]) = true
  ∧ loadOptionalTable ⟨"t", ["a"], [], fun _ => [], fun _ => false⟩ [] [[("a", Value.vnull)]] =
      ⟨0, 0, 1, [], [], []⟩ := by
  constructor
  · decide
  · decide

/-! ## Execution-time failures (C8) -/

theorem runFrom_quarantine_step (cfg : Cfg) (st : LoadRes) (raw row : Row)
    (hpr : processRow cfg st.dest raw = ⟨st.dest, 0, 0, 0, some row, []⟩) (rest : List Row) :
    runFrom cfg st (raw :: rest) =
      runFrom cfg
        ⟨st.inserted, st.updated, st.skipped, st.invalid ++ [row], st.dest, st.stmts⟩ rest := by
  rw [runFrom_cons]
  congr 1
  simp [stepWith, hpr]

/-- C8: when the UPDATE or INSERT executed for a record raises, the record
is appended to the invalid collection (as the coerced, projected row),
none of the inserted/updated/skipped counters changes, the destination
state is untouched, and the loop continues with the remaining records of
the batch from that same state. -/
theorem C8_row_failure_never_aborts_batch (cfg : Cfg) (st : LoadRes) (raw : Row)
    (hnd : (keysOf raw).Nodup)
    (hok : fkOkChecks cfg.refIds cfg.fkChecks (classifiedRow cfg raw) = true) :
    (∀ n, surrogateIdVal (classifiedRow cfg raw) = some n → existsDest st.dest n = true →
        payloadCols (classifiedRow cfg raw) ≠ [] →
        cfg.fails (Stmt.updateSet cfg.table (payloadCols (classifiedRow cfg raw)) n) = true →
        ∀ rest, runFrom cfg st (raw :: rest) =
          runFrom cfg
            ⟨st.inserted, st.updated, st.skipped,
             st.invalid ++ [classifiedRow cfg raw], st.dest, st.stmts⟩ rest)
  ∧ (∀ n, surrogateIdVal (classifiedRow cfg raw) = some n → existsDest st.dest n = false →
        cfg.fails
          (Stmt.insertInto cfg.table (nonNullCols (idCoerced (classifiedRow cfg raw)))) = true →
        ∀ rest, runFrom cfg st (raw :: rest) =
          runFrom cfg
            ⟨st.inserted, st.updated, st.skipped,
             st.invalid ++ [classifiedRow cfg raw], st.dest, st.stmts⟩ rest)
  ∧ (surrogateIdVal (classifiedRow cfg raw) = none →
        cfg.fails
          (Stmt.insertInto cfg.table (nonNullCols (idCoerced (classifiedRow cfg raw)))) = true →
        nonNullCols (idCoerced (classifiedRow cfg raw)) ≠ [] →
        ∀ rest, runFrom cfg st (raw :: rest) =
          runFrom cfg
            ⟨st.inserted, st.updated, st.skipped,
             st.invalid ++ [classifiedRow cfg raw], st.dest, st.stmts⟩ rest) := by
  refine ⟨?_, ?_, ?_⟩
  · intro n hid hex hcols hfail rest
    refine runFrom_quarantine_step cfg st raw _ ?_ rest
    unfold processRow
    rw [classifyExec_update cfg st.dest _ hok n hid hex, if_neg hcols, if_pos hfail]
  · intro n hid hex hfail rest
    refine runFrom_quarantine_step cfg st raw _ ?_ rest
    unfold processRow
    rw [classifyExec_insert_arm cfg st.dest _ hok (Or.inr ⟨n, hid, hex⟩)]
    unfold insFrom
    rw [insertRowIfMissing_explicit cfg st.dest _ (projectRow_classifiedRow cfg raw) n hid hex,
      if_pos hfail]
  · intro hid hfail hcols rest
    refine runFrom_quarantine_step cfg st raw _ ?_ rest
    unfold processRow
    rw [classifyExec_insert_arm cfg st.dest _ hok (Or.inl hid)]
    unfold insFrom
    rw [insertRowIfMissing_auto cfg st.dest _ (projectRow_classifiedRow cfg raw) hid
        (by rw [keysOf_classifiedRow]
            exact (keysOf_projectRow_sublist cfg.validCols raw).nodup hnd)
        (by cases h : nonNullCols (idCoerced (classifiedRow cfg raw)) with
            | nil => exact absurd h hcols
            | cons a t => rfl),
      if_pos hfail]

theorem C8_row_failure_witness :
    runFrom ⟨"t", ["id", "a"], [], fun _ => [], fun _ => true⟩
        ⟨0, 0, 0, [], [⟨1, [("a", Value.vstr "old")]⟩], []⟩
        [[("id", Value.vstr "1"), ("a", Value.vstr "x")]] =
      runFrom ⟨"t", ["id", "a"], [], fun _ => [], fun _ => true⟩
        ⟨0, 0, 0,
         [classifiedRow ⟨"t", ["id", "a"], [], fun _ => [], fun _ => true⟩
            [("id", Value.vstr "1"), ("a", Value.vstr "x")]],
         [⟨1, [("a", Value.vstr "old")]⟩], []⟩ [] :=
  (C8_row_failure_never_aborts_batch ⟨"t", ["id", "a"], [], fun _ => [], fun _ => true⟩
      ⟨0, 0, 0, [], [⟨1, [("a", Value.vstr "old")]⟩], []⟩
      [("id", Value.vstr "1"), ("a", Value.vstr "x")] (by decide) (by decide)).1 1
    (by decide) (by decide) (by decide) (by decide) []

/-! ## Staging cleanup control flow (C9) -/

/-- C9 (amended): once the staging phase starts, the drop of the staging
table is attempted in the final cleanup phase no matter which of the
create/bulk-load/insert/update steps failed; a drop failure is swallowed
silently — the trace ends at the drop attempt with no log record of the
cleanup failure — and it is not propagated: a successful drop only appends
the success log line to the failure-case trace, so nothing before the
cleanup (in particular the reported counters, which exist iff the whole
body succeeded and never depend on the drop) is affected. -/
theorem C9_staging_drop_unconditional (c b i u : Bool) :
    MergeEv.dropAttempt ∈ stagingPhase c b i u false
  ∧ MergeEv.dropAttempt ∈ stagingPhase c b i u true
  ∧ stagingPhase c b i u true = stagingPhase c b i u false ++ [MergeEv.logStagingDropped]
  ∧ (stagingPhase c b i u false).getLast? = some MergeEv.dropAttempt
  ∧ MergeEv.logCleanupError ∉ stagingPhase c b i u false
  ∧ MergeEv.logCleanupError ∉ stagingPhase c b i u true := by
  cases c <;> cases b <;> cases i <;> cases u <;>
    exact ⟨by decide, by decide, by decide, by decide, by decide, by decide⟩

/-- C9 counterexample: with the update statement and then the drop both
failing, the staging phase's full event trace is explicit — the drop is
attempted last and nothing is logged after it; in particular no
cleanup-failure log record exists anywhere in the trace, refuting the
claim that a failure of the drop is logged. -/
theorem C9_counterexample :
    stagingPhase true true true false false =
      [MergeEv.createStaging, MergeEv.logStagingCreated, MergeEv.bulkLoad, MergeEv.logLoaded,
       MergeEv.insertStmt, MergeEv.updateStmt, MergeEv.logMergeError, MergeEv.dropAttempt]
  ∧ MergeEv.logCleanupError ∉ stagingPhase true true true false false := by
  exact ⟨by decide, by decide⟩

/-! ## Natural-key dedup in the staged bulk merge (C4) -/

/-- C4 (amended): when two records of one incoming batch share the same
non-null natural key, the staged bulk merge deduplicates keeping the FIRST
occurrence (pandas `drop_duplicates` default `keep='first'`; the later
duplicate is dropped silently), so for a destination initially holding no
row with that key, exactly one row for the key exists afterwards and it
carries the EARLIER record's values (first-write-wins). -/
theorem C4_natural_key_dedup (pas vue : List Int) (dest : List TicketRow)
    (t1 t2 : StageTicket) (k : String)
    (h1 : t1.pnr = .vstr k) (h2 : t2.pnr = .vstr k)
    (hv : fkValidTicket pas vue (coerceTicketIds t1) = true)
    (hdest : ∀ r ∈ dest, sqlEq r.pnr (.vstr k) = false) :
    (ticketMerge pas vue dest [t1, t2]).1 =
      dest ++ [⟨(dest.map TicketRow.id).foldl max 0 + 1, Value.vstr k,
        (coerceTicketIds t1).pasajero_id, (coerceTicketIds t1).vuelo_id,
        t1.asiento, t1.estado_ticket, t1.fecha_emision⟩]
  ∧ ((ticketMerge pas vue dest [t1, t2]).1.filter
        (fun r => sqlEq r.pnr (.vstr k))).length = 1 := by
  have hc1p : (coerceTicketIds t1).pnr = .vstr k := by simp [coerceTicketIds, h1]
  have hc2p : (coerceTicketIds t2).pnr = .vstr k := by simp [coerceTicketIds, h2]
  have hc1a : (coerceTicketIds t1).asiento = t1.asiento := rfl
  have hdedup : dedupByPnr [] [coerceTicketIds t1, coerceTicketIds t2] =
      [coerceTicketIds t1] := by
    unfold dedupByPnr
    rw [if_neg (by simp)]
    unfold dedupByPnr
    rw [if_pos (by rw [hc1p, hc2p]; exact List.mem_cons_self _ _)]
    rfl
  have hmain : (ticketMerge pas vue dest [t1, t2]).1 =
      ticketUpdate (ticketInsert dest [coerceTicketIds t1]) [coerceTicketIds t1] := by
    simp only [ticketMerge, List.map_cons, List.map_nil, hdedup, List.filter_cons,
      List.filter_nil, hv, if_pos]
  have hany : dest.any (fun t => sqlEq t.pnr (coerceTicketIds t1).pnr) = false := by
    rw [List.any_eq_false]
    intro r hr
    rw [hc1p, hdest r hr]
    exact Bool.false_ne_true
  have hins : ticketInsert dest [coerceTicketIds t1] =
      dest ++ [⟨(dest.map TicketRow.id).foldl max 0 + 1, Value.vstr k,
        (coerceTicketIds t1).pasajero_id, (coerceTicketIds t1).vuelo_id,
        t1.asiento, t1.estado_ticket, t1.fecha_emision⟩] := by
    unfold ticketInsert
    rw [List.foldl_cons, List.foldl_nil, if_neg (by simp [hany])]
    rw [hc1p]
    rfl
  have hnewupd : ∀ r ∈ [(⟨(dest.map TicketRow.id).foldl max 0 + 1, Value.vstr k,
        (coerceTicketIds t1).pasajero_id, (coerceTicketIds t1).vuelo_id,
        t1.asiento, t1.estado_ticket, t1.fecha_emision⟩ : TicketRow)],
      (fun t => match List.find? (fun ts => sqlEq t.pnr ts.pnr) [coerceTicketIds t1] with
        | some ts =>
            { t with
              pasajero_id := ts.pasajero_id
              vuelo_id := ts.vuelo_id
              asiento := ts.asiento
              estado_ticket := ts.estado_ticket }
        | none => t) r = r := by
    intro r hr
    rw [List.mem_singleton] at hr
    subst hr
    have hsq : sqlEq (Value.vstr k) (coerceTicketIds t1).pnr = true := by
      rw [hc1p]
      simp [sqlEq]
    have hfind : List.find? (fun ts => sqlEq (Value.vstr k) ts.pnr) [coerceTicketIds t1] =
        some (coerceTicketIds t1) := by
      rw [List.find?_cons]
      simp [hsq]
    simp only [hfind]
    rfl
  have hupd : ticketUpdate (dest ++ [⟨(dest.map TicketRow.id).foldl max 0 + 1, Value.vstr k,
        (coerceTicketIds t1).pasajero_id, (coerceTicketIds t1).vuelo_id,
        t1.asiento, t1.estado_ticket, t1.fecha_emision⟩]) [coerceTicketIds t1] =
      dest ++ [⟨(dest.map TicketRow.id).foldl max 0 + 1, Value.vstr k,
        (coerceTicketIds t1).pasajero_id, (coerceTicketIds t1).vuelo_id,
        t1.asiento, t1.estado_ticket, t1.fecha_emision⟩] := by
    unfold ticketUpdate
    rw [List.map_append]
    congr 1
    · refine map_eq_self_of_forall dest _ ?_
      intro r hr
      have hfind : List.find? (fun ts => sqlEq r.pnr ts.pnr) [coerceTicketIds t1] = none := by
        rw [List.find?_cons]
        have : sqlEq r.pnr (coerceTicketIds t1).pnr = false := by
          rw [hc1p]
          exact hdest r hr
        simp [this]
      simp only [hfind]
    · exact map_eq_self_of_forall _ _ hnewupd
  have hfinal : (ticketMerge pas vue dest [t1, t2]).1 =
      dest ++ [⟨(dest.map TicketRow.id).foldl max 0 + 1, Value.vstr k,
        (coerceTicketIds t1).pasajero_id, (coerceTicketIds t1).vuelo_id,
        t1.asiento, t1.estado_ticket, t1.fecha_emision⟩] := by
    rw [hmain, hins, hupd]
  refine ⟨hfinal, ?_⟩
  rw [hfinal, List.filter_append]
  have hdnil : dest.filter (fun r => sqlEq r.pnr (.vstr k)) = [] := by
    rw [List.filter_eq_nil_iff]
    intro r hr
    rw [hdest r hr]
    exact Bool.false_ne_true
  rw [hdnil, List.filter_cons]
  rw [if_pos (by simp [sqlEq])]
  rfl

theorem C4_natural_key_dedup_witness :
    (ticketMerge [1] [5] []
        [⟨.vstr "AB123", .vstr "1", .vstr "5", .vstr "12A", .vstr "OK", .vstr "F1"⟩,
         ⟨.vstr "AB123", .vstr "1", .vstr "5", .vstr "12B", .vstr "OK", .vstr "F1"⟩]).1 =
      [] ++ [⟨(List.map TicketRow.id []).foldl max 0 + 1, Value.vstr "AB123",
        (coerceTicketIds ⟨.vstr "AB123", .vstr "1", .vstr "5", .vstr "12A", .vstr "OK",
          .vstr "F1"⟩).pasajero_id,
        (coerceTicketIds ⟨.vstr "AB123", .vstr "1", .vstr "5", .vstr "12A", .vstr "OK",
          .vstr "F1"⟩).vuelo_id,
        Value.vstr "12A", Value.vstr "OK", Value.vstr "F1"⟩]
  ∧ ((ticketMerge [1] [5] []
        [⟨.vstr "AB123", .vstr "1", .vstr "5", .vstr "12A", .vstr "OK", .vstr "F1"⟩,
         ⟨.vstr "AB123", .vstr "1", .vstr "5", .vstr "12B", .vstr "OK", .vstr "F1"⟩]).1.filter
          (fun r => sqlEq r.pnr (.vstr "AB123"))).length = 1 :=
  C4_natural_key_dedup [1] [5] []
    ⟨.vstr "AB123", .vstr "1", .vstr "5", .vstr "12A", .vstr "OK", .vstr "F1"⟩
    ⟨.vstr "AB123", .vstr "1", .vstr "5", .vstr "12B", .vstr "OK", .vstr "F1"⟩
    "AB123" rfl rfl (by decide) (by simp)

/-- C4 counterexample: two records of one batch share the natural key
"AB123" with seat "12A" first and "12B" second; after the staged merge the
destination holds exactly one row for that key, and it carries the FIRST
record's seat "12A" — no row carries the later record's "12B", refuting
last-write-wins. -/
theorem C4_counterexample :
    (ticketMerge [1] [5] []
        [⟨.vstr "AB123", .vstr "1", .vstr "5", .vstr "12A", .vstr "OK", .vstr "F1"⟩,
         ⟨.vstr "AB123", .vstr "1", .vstr "5", .vstr "12B", .vstr "OK", .vstr "F1"⟩]).1 =
      [⟨1, Value.vstr "AB123", Value.vint 1, Value.vint 5, Value.vstr "12A", Value.vstr "OK",
        Value.vstr "F1"⟩]
  ∧ (∀ r ∈ (ticketMerge [1] [5] []
        [⟨.vstr "AB123", .vstr "1", .vstr "5", .vstr "12A", .vstr "OK", .vstr "F1"⟩,
         ⟨.vstr "AB123", .vstr "1", .vstr "5", .vstr "12B", .vstr "OK", .vstr "F1"⟩]).1,
      ¬ r.asiento = Value.vstr "12B") := by
  exact ⟨by decide, by decide⟩

/-! ## Idempotent re-run (C3): effect-application machinery -/

theorem applyEffects_nil (d : Dest) : applyEffects d [] = d := rfl

theorem applyEffects_cons (d : Dest) (e : Int × Row) (es : List (Int × Row)) :
    applyEffects d (e :: es) = applyEffects (applyEffect d e) es := rfl

theorem destRow_ext (r s : DestRow) (hid : r.id = s.id) (hf : r.fields = s.fields) : r = s := by
  cases r
  cases s
  simp_all

theorem idsOf_updateDest (d : Dest) (n : Int) (cs : Row) :
    idsOf (updateDest d n cs) = idsOf d := by
  unfold idsOf updateDest
  rw [List.map_map]
  induction d with
  | nil => rfl
  | cons r d ih =>
      rw [List.map_cons, List.map_cons, ih]
      congr 1
      show (if r.id = n then { r with fields := setVs r.fields cs } else r).id = r.id
      split <;> rfl

theorem idsOf_append_one (d : Dest) (r : DestRow) :
    idsOf (d ++ [r]) = idsOf d ++ [r.id] := by
  unfold idsOf
  rw [List.map_append]
  rfl

theorem mem_idsOf_applyEffect (d : Dest) (e : Int × Row) (n : Int) (h : n ∈ idsOf d) :
    n ∈ idsOf (applyEffect d e) := by
  unfold applyEffect
  split
  · rwa [idsOf_updateDest]
  · rw [idsOf_append_one]
    exact List.mem_append_left _ h

theorem effId_mem_applyEffect (d : Dest) (e : Int × Row) :
    e.1 ∈ idsOf (applyEffect d e) := by
  unfold applyEffect
  split
  next hex =>
      rw [idsOf_updateDest]
      exact of_decide_eq_true hex
  · rw [idsOf_append_one]
    exact List.mem_append_right _ (List.mem_singleton.mpr rfl)

theorem mem_idsOf_applyEffects (es : List (Int × Row)) : ∀ (d : Dest) (n : Int),
    n ∈ idsOf d → n ∈ idsOf (applyEffects d es) := by
  induction es with
  | nil => intro d n h; exact h
  | cons e es ih =>
      intro d n h
      rw [applyEffects_cons]
      exact ih _ n (mem_idsOf_applyEffect d e n h)

theorem effIds_mem_applyEffects (es : List (Int × Row)) : ∀ (d : Dest), ∀ e ∈ es,
    e.1 ∈ idsOf (applyEffects d es) := by
  induction es with
  | nil => intro d e he; cases he
  | cons e' es ih =>
      intro d e he
      rw [applyEffects_cons]
      rcases List.mem_cons.mp he with rfl | he
      · exact mem_idsOf_applyEffects es _ e.1 (effId_mem_applyEffect d e)
      · exact ih _ e he

theorem lastWrite_cons (e : Int × Row) (es : List (Int × Row)) (n : Int) (k : String) :
    lastWrite (e :: es) n k =
      match lastWrite es n k with
      | some v => some v
      | none => if e.1 = n then lastVal e.2 k else none := rfl

theorem mem_applyEffect_cases (z : Dest) (e : Int × Row) (r : DestRow)
    (hr : r ∈ applyEffect z e) :
    (∃ r0 ∈ z, r0.id = e.1 ∧ r = { r0 with fields := setVs r0.fields e.2 })
  ∨ (∃ r0 ∈ z, ¬ r0.id = e.1 ∧ r = r0)
  ∨ (existsDest z e.1 = false ∧ r = ⟨e.1, e.2⟩) := by
  unfold applyEffect at hr
  by_cases hex : existsDest z e.1 = true
  · rw [if_pos hex] at hr
    unfold updateDest at hr
    obtain ⟨r0, hr0, heq⟩ := List.mem_map.mp hr
    by_cases hid : r0.id = e.1
    · rw [if_pos hid] at heq
      exact Or.inl ⟨r0, hr0, hid, heq.symm⟩
    · rw [if_neg hid] at heq
      exact Or.inr (Or.inl ⟨r0, hr0, hid, heq.symm⟩)
  · rw [if_neg hex] at hr
    rcases List.mem_append.mp hr with hr | hr
    · have hmem : r.id ∈ idsOf z := List.mem_map.mpr ⟨r, hr, rfl⟩
      have hne : ¬ r.id = e.1 := by
        intro h
        rw [h] at hmem
        exact absurd hmem (by simpa [existsDest] using hex)
      exact Or.inr (Or.inl ⟨r, hr, hne, rfl⟩)
    · rw [List.mem_singleton] at hr
      exact Or.inr (Or.inr ⟨by simpa using hex, hr⟩)

theorem applyEffects_value_preserved (es : List (Int × Row)) :
    ∀ (z : Dest) (n : Int) (k : String) (v : Value),
      lastWrite es n k = none → n ∈ idsOf z →
      (∀ r ∈ z, r.id = n → getV r.fields k = some v) →
      ∀ r' ∈ applyEffects z es, r'.id = n → getV r'.fields k = some v := by
  induction es with
  | nil => intro z n k v _ _ hval r' hr' hid; exact hval r' hr' hid
  | cons e es ih =>
      intro z n k v hlw hmem hval r' hr' hid
      rw [lastWrite_cons] at hlw
      cases h : lastWrite es n k with
      | some w =>
          rw [h] at hlw
          exact absurd (show some w = none from hlw) (by simp)
      | none =>
          rw [h] at hlw
          have hlast0 : (if e.1 = n then lastVal e.2 k else none) = none := hlw
          have hlast : e.1 = n → lastVal e.2 k = none := fun he => by
            rwa [if_pos he] at hlast0
          rw [applyEffects_cons] at hr'
          refine ih (applyEffect z e) n k v h (mem_idsOf_applyEffect z e n hmem) ?_ r' hr' hid
          intro r hr hidr
          rcases mem_applyEffect_cases z e r hr with ⟨r0, hr0, hid0, heq⟩ |
            ⟨r0, hr0, hne0, heq⟩ | ⟨hex, heq⟩
          · subst heq
            have hen : e.1 = n := by rw [← hid0]; exact hidr
            show getV (setVs r0.fields e.2) k = some v
            rw [getV_setVs, hlast hen]
            exact hval r0 hr0 (hid0.trans hen)
          · subst heq
            exact hval r hr0 hidr
          · subst heq
            exfalso
            have hen : e.1 = n := hidr
            rw [hen] at hex
            rw [show existsDest z n = true from decide_eq_true hmem] at hex
            cases hex

theorem applyEffects_value_written (es : List (Int × Row)) :
    ∀ (z : Dest) (n : Int) (k : String) (v : Value),
      (∀ e ∈ es, (keysOf e.2).Nodup) →
      lastWrite es n k = some v →
      ∀ r' ∈ applyEffects z es, r'.id = n → getV r'.fields k = some v := by
  induction es with
  | nil => intro z n k v _ hlw; cases hlw
  | cons e es ih =>
      intro z n k v hnd hlw r' hr' hid
      rw [lastWrite_cons] at hlw
      rw [applyEffects_cons] at hr'
      cases h : lastWrite es n k with
      | some w =>
          rw [h] at hlw
          have hwv : w = v := by simpa using hlw
          subst hwv
          exact ih (applyEffect z e) n k w (fun e' he' => hnd e' (List.mem_cons_of_mem e he'))
            h r' hr' hid
      | none =>
          rw [h] at hlw
          have hlw0 : (if e.1 = n then lastVal e.2 k else none) = some v := hlw
          by_cases hen : e.1 = n
          · rw [if_pos hen] at hlw0
            refine applyEffects_value_preserved es (applyEffect z e) n k v h
              (hen ▸ effId_mem_applyEffect z e) ?_ r' hr' hid
            intro r hr hidr
            rcases mem_applyEffect_cases z e r hr with ⟨r0, hr0, hid0, heq⟩ |
              ⟨r0, hr0, hne0, heq⟩ | ⟨hex, heq⟩
            · subst heq
              show getV (setVs r0.fields e.2) k = some v
              rw [getV_setVs, hlw0]
            · subst heq
              exact absurd (hidr.trans hen.symm) hne0
            · subst heq
              show getV e.2 k = some v
              rw [← lastVal_eq_getV_of_nodup e.2 k (hnd e (List.mem_cons_self e es))]
              exact hlw0
          · rw [if_neg hen] at hlw0
            cases hlw0

theorem applyEffects_key_preserved (es : List (Int × Row)) :
    ∀ (z : Dest) (n : Int) (k : String),
      n ∈ idsOf z →
      (∀ r ∈ z, r.id = n → k ∈ keysOf r.fields) →
      ∀ r' ∈ applyEffects z es, r'.id = n → k ∈ keysOf r'.fields := by
  induction es with
  | nil => intro z n k _ hkey r' hr' hid; exact hkey r' hr' hid
  | cons e es ih =>
      intro z n k hmem hkey r' hr' hid
      rw [applyEffects_cons] at hr'
      refine ih (applyEffect z e) n k (mem_idsOf_applyEffect z e n hmem) ?_ r' hr' hid
      intro r hr hidr
      rcases mem_applyEffect_cases z e r hr with ⟨r0, hr0, hid0, heq⟩ |
        ⟨r0, hr0, hne0, heq⟩ | ⟨hex, heq⟩
      · subst heq
        exact mem_keys_setVs_left r0.fields e.2 k (hkey r0 hr0 (by simpa using hidr))
      · subst heq
        exact hkey r hr0 hidr
      · subst heq
        exfalso
        have hen : e.1 = n := hidr
        rw [hen] at hex
        rw [show existsDest z n = true from decide_eq_true hmem] at hex
        cases hex

theorem applyEffects_key_written (es : List (Int × Row)) :
    ∀ (z : Dest), ∀ e ∈ es, ∀ r' ∈ applyEffects z es, r'.id = e.1 →
      ∀ k ∈ keysOf e.2, k ∈ keysOf r'.fields := by
  induction es with
  | nil => intro z e he; cases he
  | cons e' es ih =>
      intro z e he r' hr' hid k hk
      rw [applyEffects_cons] at hr'
      rcases List.mem_cons.mp he with rfl | he
      · refine applyEffects_key_preserved es (applyEffect z e) e.1 k
          (effId_mem_applyEffect z e) ?_ r' hr' hid
        intro r hr hidr
        rcases mem_applyEffect_cases z e r hr with ⟨r0, hr0, hid0, heq⟩ |
          ⟨r0, hr0, hne0, heq⟩ | ⟨hex, heq⟩
        · subst heq
          exact mem_keys_setVs_right r0.fields e.2 k hk
        · subst heq
          exact absurd hidr hne0
        · subst heq
          exact hk
      · exact ih (applyEffect z e') e he r' hr' hid k hk

theorem applyEffects_wf (es : List (Int × Row)) :
    ∀ (z : Dest), (∀ r ∈ z, (keysOf r.fields).Nodup) →
      (∀ e ∈ es, (keysOf e.2).Nodup) →
      ∀ r' ∈ applyEffects z es, (keysOf r'.fields).Nodup := by
  induction es with
  | nil => intro z hz _ r' hr'; exact hz r' hr'
  | cons e es ih =>
      intro z hz hnd r' hr'
      rw [applyEffects_cons] at hr'
      refine ih (applyEffect z e) ?_ (fun e' he' => hnd e' (List.mem_cons_of_mem e he')) r' hr'
      intro r hr
      rcases mem_applyEffect_cases z e r hr with ⟨r0, hr0, hid0, heq⟩ |
        ⟨r0, hr0, hne0, heq⟩ | ⟨hex, heq⟩
      · subst heq
        exact nodup_keys_setVs r0.fields e.2 (hz r0 hr0)
      · subst heq
        exact hz r hr0
      · subst heq
        exact hnd e (List.mem_cons_self e es)

theorem phiAll_cons (e : Int × Row) (es : List (Int × Row)) (r : DestRow) :
    phiAll (e :: es) r = phiAll es (phiStep e r) := rfl

theorem phiStep_id (e : Int × Row) (r : DestRow) : (phiStep e r).id = r.id := by
  unfold phiStep
  split <;> rfl

theorem phiAll_id (es : List (Int × Row)) : ∀ r : DestRow, (phiAll es r).id = r.id := by
  induction es with
  | nil => intro r; rfl
  | cons e es ih =>
      intro r
      rw [phiAll_cons, ih, phiStep_id]

theorem updateDest_eq_map_phiStep (d : Dest) (e : Int × Row) :
    updateDest d e.1 e.2 = d.map (phiStep e) := rfl

theorem applyEffects_all_update (es : List (Int × Row)) :
    ∀ d : Dest, (∀ e ∈ es, e.1 ∈ idsOf d) → applyEffects d es = d.map (phiAll es) := by
  induction es with
  | nil =>
      intro d _
      rw [applyEffects_nil]
      exact (map_eq_self_of_forall d _ (fun r _ => rfl)).symm
  | cons e es ih =>
      intro d hids
      rw [applyEffects_cons]
      have hex : existsDest d e.1 = true :=
        decide_eq_true (hids e (List.mem_cons_self e es))
      have h1 : applyEffect d e = d.map (phiStep e) := by
        unfold applyEffect
        rw [if_pos hex]
        exact updateDest_eq_map_phiStep d e
      rw [h1, ih (d.map (phiStep e))
        (by
          intro e' he'
          have : idsOf (d.map (phiStep e)) = idsOf d := idsOf_updateDest d e.1 e.2
          rw [this]
          exact hids e' (List.mem_cons_of_mem e he')),
        List.map_map]
      rfl

theorem getV_phiAll (es : List (Int × Row)) :
    ∀ (r : DestRow) (k : String),
      getV (phiAll es r).fields k =
        match lastWrite es r.id k with
        | some v => some v
        | none => getV r.fields k := by
  induction es with
  | nil => intro r k; rfl
  | cons e es ih =>
      intro r k
      rw [phiAll_cons, ih (phiStep e r) k, phiStep_id, lastWrite_cons]
      cases h : lastWrite es r.id k with
      | some v => rfl
      | none =>
          show getV (phiStep e r).fields k = _
          unfold phiStep
          by_cases he : r.id = e.1
          · rw [if_pos he]
            show getV (setVs r.fields e.2) k = _
            rw [getV_setVs, if_pos he.symm]
          · rw [if_neg he, if_neg (fun hh => he hh.symm)]

theorem keysOf_phiAll (es : List (Int × Row)) :
    ∀ r : DestRow, (∀ e ∈ es, e.1 = r.id → ∀ k ∈ keysOf e.2, k ∈ keysOf r.fields) →
      keysOf (phiAll es r).fields = keysOf r.fields := by
  induction es with
  | nil => intro r _; rfl
  | cons e es ih =>
      intro r hkeys
      rw [phiAll_cons]
      by_cases he : r.id = e.1
      · have hstep : (phiStep e r).fields = setVs r.fields e.2 := by
          unfold phiStep
          rw [if_pos he]
        have hkeq : keysOf (setVs r.fields e.2) = keysOf r.fields :=
          keysOf_setVs_of_subset r.fields e.2
            (fun k hk => hkeys e (List.mem_cons_self e es) he.symm k hk)
        rw [ih (phiStep e r)
          (by
            intro e' he' hid k hk
            rw [hstep, hkeq]
            exact hkeys e' (List.mem_cons_of_mem e he')
              (by rw [hid, phiStep_id]) k hk),
          hstep, hkeq]
      · have hstep : phiStep e r = r := by
          unfold phiStep
          rw [if_neg he]
        rw [hstep]
        exact ih r (fun e' he' hid k hk => hkeys e' (List.mem_cons_of_mem e he') hid k hk)

theorem applyEffects_absorb (es : List (Int × Row)) (d : Dest)
    (hnde : ∀ e ∈ es, (keysOf e.2).Nodup)
    (hwf : ∀ r ∈ d, (keysOf r.fields).Nodup) :
    applyEffects (applyEffects d es) es = applyEffects d es := by
  have hids : ∀ e ∈ es, e.1 ∈ idsOf (applyEffects d es) :=
    fun e he => effIds_mem_applyEffects es d e he
  rw [applyEffects_all_update es (applyEffects d es) hids]
  apply map_eq_self_of_forall
  intro r hr
  have hkeys : ∀ e ∈ es, e.1 = r.id → ∀ k ∈ keysOf e.2, k ∈ keysOf r.fields := by
    intro e he hid k hk
    exact applyEffects_key_written es d e he r hr hid.symm k hk
  refine destRow_ext _ _ (phiAll_id es r) ?_
  refine row_ext _ _ (keysOf_phiAll es r hkeys) ?_ ?_
  · rw [keysOf_phiAll es r hkeys]
    exact applyEffects_wf es d hwf hnde r hr
  · intro k
    rw [getV_phiAll]
    cases h : lastWrite es r.id k with
    | some v => exact (applyEffects_value_written es d r.id k v hnde h r hr rfl).symm
    | none => rfl

theorem updateDest_nil (d : Dest) (n : Int) : updateDest d n [] = d := by
  unfold updateDest
  apply map_eq_self_of_forall
  intro r _
  split <;> rfl

theorem effectOf_some (cfg : Cfg) (raw : Row) (n : Int)
    (hfk : fkOkChecks cfg.refIds cfg.fkChecks (classifiedRow cfg raw) = true)
    (hn : surrogateIdVal (classifiedRow cfg raw) = some n) :
    effectOf cfg raw = some (n, payloadCols (classifiedRow cfg raw)) := by
  simp only [effectOf]
  rw [if_pos hfk, hn]

theorem effectOf_none (cfg : Cfg) (raw : Row)
    (hfk : fkOkChecks cfg.refIds cfg.fkChecks (classifiedRow cfg raw) = false) :
    effectOf cfg raw = none := by
  simp only [effectOf]
  rw [if_neg (by simp [hfk])]

theorem effectsOf_cons_some (cfg : Cfg) (raw : Row) (rest : List Row) (e : Int × Row)
    (h : effectOf cfg raw = some e) :
    effectsOf cfg (raw :: rest) = e :: effectsOf cfg rest := by
  unfold effectsOf
  rw [List.filterMap_cons, h]

theorem effectsOf_cons_none (cfg : Cfg) (raw : Row) (rest : List Row)
    (h : effectOf cfg raw = none) :
    effectsOf cfg (raw :: rest) = effectsOf cfg rest := by
  unfold effectsOf
  rw [List.filterMap_cons, h]

theorem runFrom_dest_eq (cfg : Cfg) (hf : cfg.fails = fun _ => false) (df : List Row) :
    ∀ st : LoadRes,
      (∀ raw ∈ df, fkOkChecks cfg.refIds cfg.fkChecks (classifiedRow cfg raw) = true →
        (surrogateIdVal (classifiedRow cfg raw)).isSome = true) →
      (runFrom cfg st df).dest = applyEffects st.dest (effectsOf cfg df) := by
  induction df with
  | nil => intro st _; rfl
  | cons raw rest ih =>
      intro st hid
      rw [runFrom_cons]
      by_cases hfk : fkOkChecks cfg.refIds cfg.fkChecks (classifiedRow cfg raw) = true
      · obtain ⟨n, hn⟩ :=
          Option.isSome_iff_exists.mp (hid raw (List.mem_cons_self raw rest) hfk)
        rw [effectsOf_cons_some cfg raw rest _ (effectOf_some cfg raw n hfk hn),
          applyEffects_cons,
          ih _ (fun raw' h' hfk' => hid raw' (List.mem_cons_of_mem raw h') hfk')]
        congr 1
        by_cases hex : existsDest st.dest n = true
        · have hae : applyEffect st.dest (n, payloadCols (classifiedRow cfg raw)) =
              updateDest st.dest n (payloadCols (classifiedRow cfg raw)) := by
            unfold applyEffect
            rw [if_pos hex]
          rw [hae]
          by_cases hpc : payloadCols (classifiedRow cfg raw) = []
          · rw [hpc, updateDest_nil]
            simp [stepWith, processRow, classifyExec_update cfg st.dest _ hfk n hn hex, hpc]
          · simp [stepWith, processRow, classifyExec_update cfg st.dest _ hfk n hn hex, hpc, hf]
        · have hexf : existsDest st.dest n = false := by simpa using hex
          have hae : applyEffect st.dest (n, payloadCols (classifiedRow cfg raw)) =
              st.dest ++ [⟨n, payloadCols (classifiedRow cfg raw)⟩] := by
            unfold applyEffect
            rw [if_neg (by simp [hexf])]
          rw [hae]
          simp [stepWith, processRow,
            classifyExec_insert_arm cfg st.dest _ hfk (Or.inr ⟨n, hn, hexf⟩), insFrom,
            insertRowIfMissing_explicit cfg st.dest _ (projectRow_classifiedRow cfg raw) n hn
              hexf, hf]
      · have hfkf : fkOkChecks cfg.refIds cfg.fkChecks (classifiedRow cfg raw) = false := by
          simpa using hfk
        rw [effectsOf_cons_none cfg raw rest (effectOf_none cfg raw hfkf),
          ih _ (fun raw' h' hfk' => hid raw' (List.mem_cons_of_mem raw h') hfk')]
        congr 1
        simp [stepWith, processRow, classifyExec_quarantine cfg st.dest _ hfkf]

theorem runFrom_inserted_eq (cfg : Cfg) (hf : cfg.fails = fun _ => false) (df : List Row) :
    ∀ st : LoadRes,
      (∀ raw ∈ df, fkOkChecks cfg.refIds cfg.fkChecks (classifiedRow cfg raw) = true →
        (surrogateIdVal (classifiedRow cfg raw)).isSome = true) →
      (∀ raw ∈ df, ∀ n, fkOkChecks cfg.refIds cfg.fkChecks (classifiedRow cfg raw) = true →
        surrogateIdVal (classifiedRow cfg raw) = some n → n ∈ idsOf st.dest) →
      (runFrom cfg st df).inserted = st.inserted := by
  induction df with
  | nil => intro st _ _; rfl
  | cons raw rest ih =>
      intro st hid hmem
      rw [runFrom_cons]
      by_cases hfk : fkOkChecks cfg.refIds cfg.fkChecks (classifiedRow cfg raw) = true
      · obtain ⟨n, hn⟩ :=
          Option.isSome_iff_exists.mp (hid raw (List.mem_cons_self raw rest) hfk)
        have hex : existsDest st.dest n = true :=
          decide_eq_true (hmem raw (List.mem_cons_self raw rest) n hfk hn)
        have hids : idsOf (stepWith (processRow cfg) st raw).dest = idsOf st.dest := by
          by_cases hpc : payloadCols (classifiedRow cfg raw) = []
          · simp [stepWith, processRow, classifyExec_update cfg st.dest _ hfk n hn hex, hpc]
          · simp [stepWith, processRow, classifyExec_update cfg st.dest _ hfk n hn hex, hpc,
              hf, idsOf_updateDest]
        have hins : (stepWith (processRow cfg) st raw).inserted = st.inserted := by
          by_cases hpc : payloadCols (classifiedRow cfg raw) = []
          · simp [stepWith, processRow, classifyExec_update cfg st.dest _ hfk n hn hex, hpc]
          · simp [stepWith, processRow, classifyExec_update cfg st.dest _ hfk n hn hex, hpc, hf]
        rw [ih _ (fun raw' h' hfk' => hid raw' (List.mem_cons_of_mem raw h') hfk')
          (fun raw' h' n' hfk' hn' => by
            rw [hids]
            exact hmem raw' (List.mem_cons_of_mem raw h') n' hfk' hn'), hins]
      · have hfkf : fkOkChecks cfg.refIds cfg.fkChecks (classifiedRow cfg raw) = false := by
          simpa using hfk
        have hids : idsOf (stepWith (processRow cfg) st raw).dest = idsOf st.dest := by
          simp [stepWith, processRow, classifyExec_quarantine cfg st.dest _ hfkf]
        have hins : (stepWith (processRow cfg) st raw).inserted = st.inserted := by
          simp [stepWith, processRow, classifyExec_quarantine cfg st.dest _ hfkf]
        rw [ih _ (fun raw' h' hfk' => hid raw' (List.mem_cons_of_mem raw h') hfk')
          (fun raw' h' n' hfk' hn' => by
            rw [hids]
            exact hmem raw' (List.mem_cons_of_mem raw h') n' hfk' hn'), hins]

theorem effectsOf_nodup_cols (cfg : Cfg) (df : List Row)
    (hnd : ∀ raw ∈ df, (keysOf raw).Nodup) :
    ∀ e ∈ effectsOf cfg df, (keysOf e.2).Nodup := by
  intro e he
  obtain ⟨raw, hraw, heff⟩ := List.mem_filterMap.mp he
  have : e.2 = payloadCols (classifiedRow cfg raw) := by
    simp only [effectOf] at heff
    by_cases hfk : fkOkChecks cfg.refIds cfg.fkChecks (classifiedRow cfg raw) = true
    · rw [if_pos hfk] at heff
      cases hn : surrogateIdVal (classifiedRow cfg raw) with
      | none => rw [hn] at heff; cases heff
      | some n =>
          rw [hn] at heff
          have heq := heff.symm
          rw [Option.some.injEq] at heq
          rw [heq]
    · rw [if_neg (by simp [hfk])] at heff
      cases heff
  rw [this]
  exact nodup_keys_filter _ _ (nodup_keys_classifiedRow cfg raw (hnd raw hraw))

/-- C3 (amended): running `load_optional_table` a second time on an
identical batch against the destination state left by the first run
performs zero inserts and leaves the destination state exactly as the
first run left it — provided every record that passes FK validation
carries a surrogate id that coerces to a non-null integer (and batch
records / destination rows are well-formed mappings with no duplicate
column names). Records without such an id are re-inserted by a second run,
which is the counterexample to the unamended claim. -/
theorem C3_idempotent_rerun (cfg : Cfg) (dest : Dest) (df : List Row)
    (hf : cfg.fails = fun _ => false)
    (hid : ∀ raw ∈ df, fkOkChecks cfg.refIds cfg.fkChecks (classifiedRow cfg raw) = true →
      (surrogateIdVal (classifiedRow cfg raw)).isSome = true)
    (hnd : ∀ raw ∈ df, (keysOf raw).Nodup)
    (hwf : ∀ r ∈ dest, (keysOf r.fields).Nodup) :
    (loadOptionalTable cfg (loadOptionalTable cfg dest df).dest df).inserted = 0
  ∧ (loadOptionalTable cfg (loadOptionalTable cfg dest df).dest df).dest =
      (loadOptionalTable cfg dest df).dest := by
  have hR1 : (loadOptionalTable cfg dest df).dest = applyEffects dest (effectsOf cfg df) :=
    runFrom_dest_eq cfg hf df ⟨0, 0, 0, [], dest, []⟩ hid
  have hmem : ∀ raw ∈ df, ∀ n,
      fkOkChecks cfg.refIds cfg.fkChecks (classifiedRow cfg raw) = true →
      surrogateIdVal (classifiedRow cfg raw) = some n →
      n ∈ idsOf (loadOptionalTable cfg dest df).dest := by
    intro raw hraw n hfk hn
    rw [hR1]
    have heff : effectOf cfg raw = some (n, payloadCols (classifiedRow cfg raw)) :=
      effectOf_some cfg raw n hfk hn
    have hin : (n, payloadCols (classifiedRow cfg raw)) ∈ effectsOf cfg df :=
      List.mem_filterMap.mpr ⟨raw, hraw, heff⟩
    exact effIds_mem_applyEffects (effectsOf cfg df) dest _ hin
  constructor
  · exact runFrom_inserted_eq cfg hf df
      ⟨0, 0, 0, [], (loadOptionalTable cfg dest df).dest, []⟩ hid hmem
  · have hR2 : (loadOptionalTable cfg (loadOptionalTable cfg dest df).dest df).dest =
        applyEffects (loadOptionalTable cfg dest df).dest (effectsOf cfg df) :=
      runFrom_dest_eq cfg hf df ⟨0, 0, 0, [], (loadOptionalTable cfg dest df).dest, []⟩ hid
    rw [hR2, hR1]
    exact applyEffects_absorb (effectsOf cfg df) dest (effectsOf_nodup_cols cfg df hnd) hwf

theorem C3_idempotent_rerun_witness :
    (loadOptionalTable ⟨"t", ["id", "a"], [], fun _ => [], fun _ => false⟩
        (loadOptionalTable ⟨"t", ["id", "a"], [], fun _ => [], fun _ => false⟩ []
          [[("id", Value.vstr "1"), ("a", Value.vstr "x")]]).dest
        [[("id", Value.vstr "1"), ("a", Value.vstr "x")]]).inserted = 0
  ∧ (loadOptionalTable ⟨"t", ["id", "a"], [], fun _ => [], fun _ => false⟩
        (loadOptionalTable ⟨"t", ["id", "a"], [], fun _ => [], fun _ => false⟩ []
          [[("id", Value.vstr "1"), ("a", Value.vstr "x")]]).dest
        [[("id", Value.vstr "1"), ("a", Value.vstr "x")]]).dest =
      (loadOptionalTable ⟨"t", ["id", "a"], [], fun _ => [], fun _ => false⟩ []
        [[("id", Value.vstr "1"), ("a", Value.vstr "x")]]).dest :=
  C3_idempotent_rerun ⟨"t", ["id", "a"], [], fun _ => [], fun _ => false⟩ []
    [[("id", Value.vstr "1"), ("a", Value.vstr "x")]] rfl (by decide) (by decide) (by simp)

/-- C3 counterexample: a record with no surrogate id at all is inserted
again by the second run — the second run performs one insert, not zero,
and the destination after two runs (two rows) differs from the destination
after one run (one row). -/
theorem C3_counterexample :
    (loadOptionalTable ⟨"t", ["a"], [], fun _ => [], fun _ => false⟩
        (loadOptionalTable ⟨"t", ["a"], [], fun _ => [], fun _ => false⟩ []
          [[("a", Value.vstr "x")]]).dest
        [[("a", Value.vstr "x")]]).inserted = 1
  ∧ ¬ (loadOptionalTable ⟨"t", ["a"], [], fun _ => [], fun _ => false⟩
        (loadOptionalTable ⟨"t", ["a"], [], fun _ => [], fun _ => false⟩ []
          [[("a", Value.vstr "x")]]).dest
        [[("a", Value.vstr "x")]]).dest =
      (loadOptionalTable ⟨"t", ["a"], [], fun _ => [], fun _ => false⟩ []
        [[("a", Value.vstr "x")]]).dest := by
  exact ⟨by decide, by decide⟩
